import Mathlib

/-!
# Verification of `convert.py` (jekyll2zola)

A shallow embedding of the Jekyll→Zola front-matter converter
(`src/convert.py`) together with proofs about the claims of its
specification.

Text is modelled as `List Char` (`Str` below); every function that the
Python code applies to text (`str.strip`, `re.search`, `re.sub`,
`os.path.join`, …) is translated here at the character level.  Python
values decoded from YAML front matter are modelled by the inductive
type `PyVal`; Python `dict`s are modelled as association lists in
insertion order with the unique-key invariant of real dicts (so `del`
and key-assignment are translated as remove-all / replace-in-place).

Third-party library calls are embedded from the libraries' own
semantics:
* `yaml.safe_load` is not given an operational model; a file's decode
  result is an explicit input (`Except PyErr PyVal`) of the pipeline —
  PyYAML returns `None` for an empty document and raises a
  `yaml.YAMLError` for unparsable text, and `convert.py` contains no
  `try`/`except`, so a raised decode error propagates.
* `toml.dumps` is translated from uiri/toml 0.10.2 (`encoder.py`):
  inline arrays `[ v1, v2,]` with a trailing comma, `None` values
  skipped by `dump_sections`, sub-tables emitted after all scalar
  pairs, a blank line inserted before a `[section]` header unless the
  output already ends in two newlines.  The array-of-tables branch
  (lists containing dicts) is outside the modelled fragment; none of
  the data produced by the converter reaches it.
* `re.search(r'\d{4}-\d{2}-\d{2}', path)` and
  `re.sub(r'\[\s*([^\]]+?)\s*,\s*\]', r'[\1]', s)` are translated as
  explicit leftmost-match scanners with the lazy/greedy behaviour of
  the CPython engine (`\d` restricted to ASCII digits, the only digits
  occurring in the paths this tool processes).
* `datetime.strptime(s, '%Y-%m-%d').date()` is translated from
  CPython's `_strptime` table: `%Y` is exactly four digits, `%m` and
  `%d` are the one-or-two-digit alternations, the whole string must be
  consumed, and the resulting triple must be a real calendar date.
-/

/-- Python text, modelled at the character level. -/
abbrev Str := List Char

/-- The whitespace set of Python's `str.strip()` / `\s`. -/
def isPySpace (c : Char) : Bool :=
  c = ' ' ∨ c = '\t' ∨ c = '\n' ∨ c = '\r' ∨ c = '\x0b' ∨ c = '\x0c'

/-- Python `str.strip()`: remove leading and trailing whitespace. -/
def pyStrip (cs : Str) : Str :=
  ((cs.dropWhile isPySpace).reverse.dropWhile isPySpace).reverse

/-- ASCII decimal digit (the `\d` class over the ASCII fragment). -/
def isAsciiDigit (c : Char) : Bool := '0' ≤ c ∧ c ≤ '9'

/-! ## Document Reader (`Parser.read`, src/convert.py lines 22–35)

The Python code reads the file line by line (each line keeps its
trailing newline) and runs a three-state classifier; here the file is
the list of its lines and the loop body is `readStep`. -/

/-- The three states of `ParserState` in `convert.py`. -/
inductive ParserState where
  | unknown
  | front_matter
  | content
deriving DecidableEq, Repr

/-- The accumulator of `Parser.read`: current state, `raw_front`
lines, `content` lines. -/
structure ScanAcc where
  state : ParserState
  raw_front : List Str
  content : List Str
deriving DecidableEq, Repr

/-- `line.strip() == "---"`. -/
def isDelimLine (line : Str) : Bool := pyStrip line = "---".data

/-- One iteration of the `for line in file` loop of `Parser.read`,
translating its `if`/`elif` chain. -/
def readStep (a : ScanAcc) (line : Str) : ScanAcc :=
  if a.state = .unknown ∧ isDelimLine line then
    { a with state := .front_matter }
  else if a.state = .front_matter ∧ isDelimLine line then
    { a with state := .content }
  else if a.state = .front_matter then
    { a with raw_front := a.raw_front ++ [line] }
  else if a.state = .content then
    { a with content := a.content ++ [line] }
  else a

/-- The whole loop of `Parser.read`, from the initial
`ParserState.UNKNOWN` state with empty accumulators. -/
def readLines (lines : List Str) : ScanAcc :=
  lines.foldl readStep ⟨.unknown, [], []⟩

/-! ## Python values, dicts and errors

Values decoded from YAML front matter.  Python `dict`s appear as
association lists in insertion order; the code only ever builds them
from real dicts, so keys are unique and `del d[k]` (which removes the
single entry of `k`) is translated as removing every entry of `k`. -/

/-- A Python value as produced by `yaml.safe_load` and consumed by the
converter. -/
inductive PyVal where
  | none
  | str (s : Str)
  | int (n : Int)
  | bool (b : Bool)
  | list (xs : List PyVal)
  | dict (entries : List (Str × PyVal))
deriving Repr

/-- The Python exceptions the converter can raise (all uncaught). -/
inductive PyErr where
  | typeError (msg : String)
  | keyError (key : String)
  | valueError (msg : String)
  | yamlError (msg : String)
deriving DecidableEq, Repr

/-- Python truthiness of the modelled values. -/
def pyTruthy : PyVal → Bool
  | .none => false
  | .str s => ¬ s.isEmpty
  | .int n => n ≠ 0
  | .bool b => b
  | .list xs => ¬ xs.isEmpty
  | .dict d => ¬ d.isEmpty

/-- `d[k]` / `k in d`: first (only) binding of `k`. -/
def alookup : List (Str × PyVal) → Str → Option PyVal
  | [], _ => Option.none
  | (k', v) :: rest, k => if k' = k then some v else alookup rest k

/-- `del d[k]` on a unique-key dict: drop the binding of `k`. -/
def aerase (d : List (Str × PyVal)) (k : Str) : List (Str × PyVal) :=
  d.filter (fun p => p.1 ≠ k)

/-- `d[k] = v`: replace in place if `k` is bound, else append. -/
def aset : List (Str × PyVal) → Str → PyVal → List (Str × PyVal)
  | [], k, v => [(k, v)]
  | (k', v') :: rest, k, v =>
    if k' = k then (k, v) :: rest else (k', v') :: aset rest k v

/-! ## Field Mapper (`JekyllFront.__init__`, src/convert.py lines 61–74)

`JekyllFront(**front)` binds `title` (required), `date`, `subtitle`,
`author`, `tags` by name; all remaining keys are collected, in
insertion order, into the `extra` dict.  The body then executes
`del extra['layout']` (a `KeyError` if absent) and renames
`header-img` to `cover` via `extra['cover'] = extra.pop('header-img')`. -/

/-- The five parameter names of `JekyllFront.__init__`; every other
key of the decoded mapping lands in `**extra`. -/
def jekyllFields : List Str :=
  ["title".data, "date".data, "subtitle".data, "author".data, "tags".data]

structure JekyllFront where
  title : PyVal
  date : PyVal
  subtitle : PyVal
  author : PyVal
  tags : PyVal
  extra : List (Str × PyVal)
deriving Repr

/-- `JekyllFront(**front)`.  A missing `title` key is a `TypeError`
(missing required positional argument); a missing `layout` key is a
`KeyError` raised by the unconditional `del extra['layout']`. -/
def JekyllFront.init (front : List (Str × PyVal)) : Except PyErr JekyllFront :=
  match alookup front "title".data with
  | Option.none =>
      .error (.typeError "__init__() missing 1 required positional argument: 'title'")
  | some title =>
    let date := (alookup front "date".data).getD .none
    let subtitle := (alookup front "subtitle".data).getD .none
    let author := (alookup front "author".data).getD .none
    let tags := (alookup front "tags".data).getD .none
    let extra := front.filter (fun p => p.1 ∉ jekyllFields)
    match alookup extra "layout".data with
    | Option.none => .error (.keyError "layout")
    | some _ =>
      let extra := aerase extra "layout".data
      let extra :=
        match alookup extra "header-img".data with
        | some v => aset (aerase extra "header-img".data) "cover".data v
        | Option.none => extra
      .ok ⟨title, date, subtitle, author, tags, extra⟩

/-- The `extra` dict as `JekyllFront.__init__` leaves it (spelled out
for use in statements): the non-field keys in order, `layout` deleted,
`header-img` popped into `cover`. -/
def extraAfterInit (front : List (Str × PyVal)) : List (Str × PyVal) :=
  let e0 := front.filter (fun p => p.1 ∉ jekyllFields)
  let e1 := aerase e0 "layout".data
  match alookup e1 "header-img".data with
  | some v => aset (aerase e1 "header-img".data) "cover".data v
  | Option.none => e1

/-! ## Date extraction (`JekyllDoc.extract_date`, src/convert.py lines 50–53)

`re.search(r'\d{4}-\d{2}-\d{2}', path)`: the pattern has fixed width
10, so the search returns the ten characters starting at the leftmost
position where the digit/hyphen shape matches. -/

/-- The shape `\d{4}-\d{2}-\d{2}` as a predicate on a ten-character
candidate (`\d` over the ASCII fragment). -/
def dateShaped : Str → Bool
  | [a, b, c, d, e, f, g, h, i, j] =>
    isAsciiDigit a && isAsciiDigit b && isAsciiDigit c && isAsciiDigit d &&
    e = '-' && isAsciiDigit f && isAsciiDigit g && h = '-' &&
    isAsciiDigit i && isAsciiDigit j
  | _ => false

/-- Match the pattern anchored at the start of `cs`. -/
def dateMatch (cs : Str) : Option Str :=
  let p := cs.take 10
  if dateShaped p then some p else Option.none

/-- `re.search`: try every start position left to right. -/
def reSearchDate : Str → Option Str
  | [] => Option.none
  | c :: rest =>
    match dateMatch (c :: rest) with
    | some m => some m
    | Option.none => reSearchDate rest

/-- `JekyllDoc.extract_date`: overwrite `front.date` with the first
path match, if any. -/
def JekyllDoc.extract_date (f : JekyllFront) (path : Str) : JekyllFront :=
  match reSearchDate path with
  | some m => { f with date := .str m }
  | Option.none => f

/-- `JekyllDoc(front, content, path)`: build the front matter (may
raise), keep the content, then run `extract_date` on the path. -/
structure JekyllDoc where
  front : JekyllFront
  content : Str
deriving Repr

def JekyllDoc.init (front : List (Str × PyVal)) (content : Str) (path : Str) :
    Except PyErr JekyllDoc :=
  (JekyllFront.init front).map fun jf => ⟨JekyllDoc.extract_date jf path, content⟩

/-! ## `datetime.strptime(s, '%Y-%m-%d').date()` and `date.isoformat()` -/

/-- A `datetime.date`: year, month, day (already validated). -/
structure PyDate where
  year : Nat
  month : Nat
  day : Nat
deriving DecidableEq, Repr

def digitVal (c : Char) : Nat := c.toNat - '0'.toNat

/-- `%Y` in CPython's `_strptime`: exactly four digits. -/
def parseYear4 : Str → Option (Nat × Str)
  | a :: b :: c :: d :: rest =>
    if isAsciiDigit a && isAsciiDigit b && isAsciiDigit c && isAsciiDigit d then
      some (digitVal a * 1000 + digitVal b * 100 + digitVal c * 10 + digitVal d, rest)
    else Option.none
  | _ => Option.none

/-- The day field `%d` (`3[01]|[12]\d|0[1-9]|[1-9]`) at the end of the
pattern: a two-digit alternative must leave nothing behind, and the
one-digit fallback only survives on a one-character remainder. -/
def parseDayEnd : Str → Option Nat
  | [c] => if isAsciiDigit c ∧ 1 ≤ digitVal c then some (digitVal c) else Option.none
  | [c, c2] =>
    if c = '3' ∧ (c2 = '0' ∨ c2 = '1') then some (30 + digitVal c2)
    else if (c = '1' ∨ c = '2') ∧ isAsciiDigit c2 then some (digitVal c * 10 + digitVal c2)
    else if c = '0' ∧ isAsciiDigit c2 ∧ 1 ≤ digitVal c2 then some (digitVal c2)
    else Option.none
  | _ => Option.none

/-- After the month, the pattern continues with `-` and `%d` at the
end of the string. -/
def monthCont (m : Nat) : Str → Option (Nat × Nat)
  | '-' :: rest => (parseDayEnd rest).map (fun d => (m, d))
  | _ => Option.none

/-- The month field `%m` (`1[0-2]|0[1-9]|[1-9]`) followed by `-%d$`,
with the regex engine's alternation order and backtracking: a
two-digit alternative whose continuation fails falls back to the
one-digit alternative. -/
def parseMonthDashDayEnd : Str → Option (Nat × Nat)
  | [] => Option.none
  | c :: rest =>
    let alt3 : Option (Nat × Nat) :=
      if isAsciiDigit c ∧ 1 ≤ digitVal c then monthCont (digitVal c) rest
      else Option.none
    match rest with
    | c2 :: rest2 =>
      let alt1 : Option (Nat × Nat) :=
        if c = '1' ∧ (c2 = '0' ∨ c2 = '1' ∨ c2 = '2') then
          monthCont (10 + digitVal c2) rest2
        else Option.none
      let alt2 : Option (Nat × Nat) :=
        if c = '0' ∧ isAsciiDigit c2 ∧ 1 ≤ digitVal c2 then
          monthCont (digitVal c2) rest2
        else Option.none
      alt1 <|> alt2 <|> alt3
    | [] => alt3

/-- The whole `'%Y-%m-%d'` pattern over the whole string. -/
def strptimeYmd (cs : Str) : Option (Nat × Nat × Nat) :=
  match parseYear4 cs with
  | some (y, '-' :: rest) => (parseMonthDashDayEnd rest).map (fun p => (y, p.1, p.2))
  | _ => Option.none

/-- Gregorian leap year, as `calendar.isleap` / `datetime`. -/
def isLeapYear (y : Nat) : Bool := y % 4 = 0 ∧ (y % 100 ≠ 0 ∨ y % 400 = 0)

/-- `datetime`'s days-in-month table. -/
def daysInMonth (y m : Nat) : Nat :=
  if m = 2 then (if isLeapYear y then 29 else 28)
  else if m = 4 ∨ m = 6 ∨ m = 9 ∨ m = 11 then 30
  else 31

/-- `datetime.strptime(v, '%Y-%m-%d').date()`: only a string matching
the pattern and naming a real calendar date (year ≥ 1) succeeds; a
non-string argument is a `TypeError`, a non-conforming or impossible
date a `ValueError`. -/
def strptimeDate : PyVal → Except PyErr PyDate
  | .str s =>
    match strptimeYmd s with
    | some (y, m, d) =>
      if 1 ≤ y ∧ 1 ≤ d ∧ d ≤ daysInMonth y m then .ok ⟨y, m, d⟩
      else .error (.valueError "day is out of range for month")
    | Option.none =>
      .error (.valueError "time data does not match format '%Y-%m-%d'")
  | _ => .error (.typeError "strptime() argument 1 must be str")

/-- The ASCII digit character for `n % 10`. -/
def digitChar10 (n : Nat) : Char := Char.ofNat (48 + n % 10)

/-- `date.isoformat()`: `%04d-%02d-%02d`.  `datetime` years lie in
1…9999 and months/days below 100, so each field prints in exactly its
padded width. -/
def isoformat (d : PyDate) : Str :=
  [digitChar10 (d.year / 1000), digitChar10 (d.year / 100),
   digitChar10 (d.year / 10), digitChar10 d.year, '-',
   digitChar10 (d.month / 10), digitChar10 d.month, '-',
   digitChar10 (d.day / 10), digitChar10 d.day]

/-! ## `JekyllFront.to_zola_front` (src/convert.py lines 76–90) -/

structure ZolaFront where
  title : PyVal
  date : Option PyDate
  description : PyVal
  author : PyVal
  extra : List (Str × PyVal)
  taxonomies : List (Str × PyVal)
deriving Repr

/-- `to_zola_front`: build the `taxonomies` dict (`tags` first, then
`author` coerced to a list unless it already is one; falsy values are
omitted), parse a truthy `date` with `strptime` (fatal on failure),
and carry `title`, `subtitle`→`description`, `author`, `extra`
through. -/
def JekyllFront.to_zola_front (f : JekyllFront) : Except PyErr ZolaFront :=
  let taxonomies : List (Str × PyVal) :=
    (if pyTruthy f.tags then [("tags".data, f.tags)] else []) ++
    (if pyTruthy f.author then
      [("author".data,
        match f.author with
        | .list xs => .list xs
        | a => .list [a])]
     else [])
  match (if pyTruthy f.date then (strptimeDate f.date).map some
         else .ok Option.none : Except PyErr (Option PyDate)) with
  | .error e => .error e
  | .ok d =>
    .ok { title := f.title, date := d, description := f.subtitle,
          author := f.author, extra := f.extra, taxonomies := taxonomies }

/-! ## `toml.dumps` (uiri/toml 0.10.2, `encoder.py`)

`dumps` first emits `key = value` lines for the non-dict, non-`None`
top-level values in insertion order (`dump_sections`), then emits each
dict value as a `[section]` block, inserting a blank line before a
header unless the text already ends in two newlines.  Strings are
double-quoted with backslash escapes; lists are emitted inline as
`[ v1, v2,]`.  The array-of-tables branch (a list containing a dict)
is outside the modelled fragment; the converter never produces one. -/

/-- `_dump_str`'s escapes, as a character map (the sequential
`replace` calls of the library, backslash first, are equivalent). -/
def escChar : Char → Str
  | '\\' => ['\\', '\\']
  | '\r' => ['\\', 'r']
  | '\n' => ['\\', 'n']
  | '"' => ['\\', '"']
  | '\t' => ['\\', 't']
  | '\x0c' => ['\\', 'f']
  | '\x08' => ['\\', 'b']
  | c => [c]

/-- `_dump_str`: double-quote with escapes. -/
def dumpStr (s : Str) : Str := '"' :: (s.map escChar).flatten ++ ['"']

/-- The bare-key class `^[A-Za-z0-9_-]+$` of `dump_sections`. -/
def isBareKeyChar (c : Char) : Bool :=
  ('A' ≤ c ∧ c ≤ 'Z') ∨ ('a' ≤ c ∧ c ≤ 'z') ∨ ('0' ≤ c ∧ c ≤ '9') ∨ c = '_' ∨ c = '-'

/-- Key quoting of `dump_sections`. -/
def tomlKey (k : Str) : Str :=
  if ¬ k.isEmpty ∧ k.all isBareKeyChar then k else dumpStr k

/-- `dump_list` applied to a dict (reachable only for a dict inside a
list): iterating a dict yields its keys. -/
def dumpDictAsList : List (Str × PyVal) → Str
  | [] => []
  | (k, _) :: rest => ' ' :: dumpStr k ++ ',' :: dumpDictAsList rest

mutual
/-- `dump_value`: `None` falls through to `_dump_str` (giving the
string `"None"`); this is only reachable inside a list, since
`dump_sections` skips `None` values. -/
def dumpValue : PyVal → Str
  | .none => "\"None\"".data
  | .str s => dumpStr s
  | .int n => (toString n).data
  | .bool b => (if b then "true" else "false").data
  | .list xs => '[' :: dumpItems xs ++ [']']
  | .dict d => '[' :: dumpDictAsList d ++ [']']

/-- The loop of `dump_list`: `retval += " " + dump_value(u) + ","`. -/
def dumpItems : List PyVal → Str
  | [] => []
  | u :: rest => ' ' :: dumpValue u ++ ',' :: dumpItems rest
end

/-- `dump_sections`: `key = value` lines for non-dict values (`None`
skipped), dict values deferred, both in insertion order. -/
def dumpSections : List (Str × PyVal) → Str × List (Str × List (Str × PyVal))
  | [] => ([], [])
  | (k, .dict d) :: rest =>
    let r := dumpSections rest
    (r.1, (k, d) :: r.2)
  | (_, .none) :: rest => dumpSections rest
  | (k, v) :: rest =>
    let r := dumpSections rest
    (tomlKey k ++ " = ".data ++ dumpValue v ++ '\n' :: r.1, r.2)

/-- `retval[-2:] == "\n\n"`. -/
def endsTwoNl (cs : Str) : Bool :=
  match cs.reverse with
  | '\n' :: '\n' :: _ => true
  | _ => false

/-- The blank line inserted before a `[section]` header:
`if retval and retval[-2:] != "\n\n": retval += "\n"`. -/
def headerPad (retval : Str) : Str :=
  if ¬ retval.isEmpty ∧ ¬ endsTwoNl retval then retval ++ ['\n'] else retval

/-- One pass of the `while sections` loop of `dumps`: emit every
current section, collect nested dicts (dotted names) for the next
pass. -/
def dumpsPass : Str → List (Str × List (Str × PyVal)) →
    Str × List (Str × List (Str × PyVal))
  | retval, [] => (retval, [])
  | retval, (name, content) :: rest =>
    let s := dumpSections content
    let retval' :=
      if ¬ s.1.isEmpty ∨ (s.1.isEmpty ∧ s.2.isEmpty) then
        headerPad retval ++ '[' :: name ++ ']' :: '\n' :: s.1
      else retval
    let r := dumpsPass retval' rest
    (r.1, s.2.map (fun p => (name ++ '.' :: p.1, p.2)) ++ r.2)

/-- The `while sections` loop, with enough fuel for the nesting depth
(each pass strictly shallows the pending sections). -/
def dumpsLoop : Nat → Str → List (Str × List (Str × PyVal)) → Str
  | _, retval, [] => retval
  | 0, retval, _ => retval
  | fuel+1, retval, sections =>
    let r := dumpsPass retval sections
    dumpsLoop fuel r.1 r.2

mutual
/-- Dict-nesting depth, used only to size the fuel of `dumpsLoop`. -/
def pyDepth : PyVal → Nat
  | .dict d => 1 + pyDepthEntries d
  | .list xs => pyDepthList xs
  | _ => 0

def pyDepthEntries : List (Str × PyVal) → Nat
  | [] => 0
  | (_, v) :: rest => max (pyDepth v) (pyDepthEntries rest)

def pyDepthList : List PyVal → Nat
  | [] => 0
  | v :: rest => max (pyDepth v) (pyDepthList rest)
end

/-- `toml.dumps`. -/
def tomlDumps (o : List (Str × PyVal)) : Str :=
  let r := dumpSections o
  dumpsLoop (1 + pyDepthEntries o) r.1 r.2

/-! ## The cosmetic regex pass
`re.sub(r'\[\s*([^\]]+?)\s*,\s*\]', r'[\1]', toml_data)`

A match starts at a literal `[`; then greedy `\s*`, a lazy non-empty
group of non-`]` characters, greedy `\s*`, a comma, greedy `\s*` and
the closing `]`.  Because `,` and `]` are not whitespace, the trailing
`\s*,\s*\]` admits no real backtracking, so the engine's behaviour is:
try the longest whitespace run after `[` first (backing off one
character at a time), and inside that grow the group lazily, testing
the tail after every character. -/

/-- The tail `\s*,\s*\]`; returns the unconsumed rest on success. -/
def parseTail (cs : Str) : Option Str :=
  match cs.dropWhile isPySpace with
  | ',' :: cs2 =>
    match cs2.dropWhile isPySpace with
    | ']' :: r => some r
    | _ => Option.none
  | _ => Option.none

/-- Lazy group search: after each consumed non-`]` character, try the
tail.  Returns (group, rest-after-match). -/
def findGroup : Str → Str → Option (Str × Str)
  | _, [] => Option.none
  | acc, c :: rest =>
    if c = ']' then Option.none
    else
      match parseTail rest with
      | some r => some (acc ++ [c], r)
      | Option.none => findGroup (acc ++ [c]) rest

/-- Greedy `\s*` after `[`: try the longest whitespace prefix first,
backing off on failure. -/
def tryWs (cs : Str) : Nat → Option (Str × Str)
  | 0 => findGroup [] cs
  | n+1 =>
    match findGroup [] (cs.drop (n+1)) with
    | some gr => some gr
    | Option.none => tryWs cs n

/-- Match the pattern immediately after a `[`. -/
def matchBracket (cs : Str) : Option (Str × Str) :=
  tryWs cs (cs.takeWhile isPySpace).length

/-- The scan of `re.sub`: leftmost, non-overlapping; each match
`[..group..,]` is replaced by `[` ++ group ++ `]`.  Fuel is the length
of the text (every step consumes at least one character). -/
def pySubAux : Nat → Str → Str
  | 0, cs => cs
  | _+1, [] => []
  | fuel+1, c :: cs =>
    if c = '[' then
      match matchBracket cs with
      | some (g, r) => '[' :: g ++ ']' :: pySubAux fuel r
      | Option.none => c :: pySubAux fuel cs
    else c :: pySubAux fuel cs

def pySub (cs : Str) : Str := pySubAux cs.length cs

/-! ## Metadata Encoder (`ZolaFront.to_toml`, src/convert.py lines 101–113)
and Writer (`ZolaDoc.to_string`, lines 115–121) -/

def ZolaFront.to_toml (f : ZolaFront) : Str :=
  let data : List (Str × PyVal) :=
    [("title".data, f.title),
     ("date".data,
       match f.date with
       | some d => .str (isoformat d)
       | Option.none => .none),
     ("description".data, f.description)]
    ++ (if f.taxonomies.isEmpty then [] else [("taxonomies".data, .dict f.taxonomies)])
    ++ (if f.extra.isEmpty then [] else [("extra".data, .dict f.extra)])
  let toml_data := pyStrip (tomlDumps data)
  pySub toml_data ++ ['\n']

structure ZolaDoc where
  front : ZolaFront
  content : Str

def ZolaDoc.to_string (doc : ZolaDoc) : Str :=
  "+++\n".data ++ doc.front.to_toml ++ "+++\n\n".data ++ doc.content

/-! ## Per-file pipeline (`convert_file`, src/convert.py lines 123–136)

`yaml.safe_load`'s result on the collected metadata text is an
explicit input: `.error e` models a raised decode error (unparsable
text — PyYAML raises, and nothing catches), `.ok .none` models the
`None` returned for an empty document, `.ok v` a decoded value. -/

/-- `os.path.join` (posix, two arguments). -/
def pjoin (a b : Str) : Str :=
  if b.take 1 = ['/'] then b
  else if a.isEmpty ∨ a.getLast? = some '/' then a ++ b
  else a ++ '/' :: b

/-- `pathlib.Path(p).name` on the ordinary paths built here: the part
after the last `/`. -/
def baseName (p : Str) : Str := (p.reverse.takeWhile (fun c => c ≠ '/')).reverse

/-- The destination path computed in `convert_file`: joined with the
input's base name when the output path is a directory, used verbatim
otherwise. -/
def outTarget (outPath : Str) (outIsDir : Bool) (inPath : Str) : Str :=
  if outIsDir then pjoin outPath (baseName inPath) else outPath

/-- What one call of `convert_file` does. -/
inductive ConvertOutcome where
  /-- An uncaught exception propagates and aborts the run. -/
  | fatal (e : PyErr)
  /-- `into_jekyll` returned `None`: a diagnostic is printed to stderr
  and no output is written. -/
  | skipped
  /-- The converted text is written to the destination path. -/
  | written (outPath : Str) (text : Str)
deriving DecidableEq, Repr

/-- `convert_file`, from the scanned content lines and the decode
result of the metadata block. -/
def convertFile (decoded : Except PyErr PyVal) (contentLines : List Str)
    (inPath outPath : Str) (outIsDir : Bool) : ConvertOutcome :=
  match decoded with
  | .error e => .fatal e
  | .ok front =>
    if pyTruthy front then
      match front with
      | .dict d =>
        match JekyllDoc.init d contentLines.flatten inPath with
        | .error e => .fatal e
        | .ok doc =>
          match doc.front.to_zola_front with
          | .error e => .fatal e
          | .ok zf =>
            .written (outTarget outPath outIsDir inPath)
                     (ZolaDoc.to_string ⟨zf, doc.content⟩)
      | _ => .fatal (.typeError "argument after ** must be a mapping")
    else .skipped

/-- One input file: its lines, the decode result of its metadata
block, and its path. -/
structure FileInput where
  lines : List Str
  decoded : Except PyErr PyVal
  path : Str

/-- The per-file loop of `main`: files are processed in order; an
uncaught exception aborts the whole run (later files are never
reached), while a skipped file only prints a diagnostic. -/
def runFiles (outPath : Str) (outIsDir : Bool) :
    List FileInput → List ConvertOutcome × Option PyErr
  | [] => ([], Option.none)
  | f :: rest =>
    match convertFile f.decoded (readLines f.lines).content f.path outPath outIsDir with
    | .fatal e => ([], some e)
    | o =>
      let r := runFiles outPath outIsDir rest
      (o :: r.1, r.2)

/-! ## Walker (`main`, src/convert.py lines 151–162) -/

/-- A directory: files and subdirectories, in listing order. -/
inductive FsTree where
  | node (files : List Str) (dirs : List (Str × FsTree))

mutual
/-- `os.walk` (top-down): the root's `(dirpath, filenames)` first,
then each subdirectory in order. -/
def walkTree : Str → FsTree → List (Str × List Str)
  | root, .node files dirs => (root, files) :: walkDirs root dirs

def walkDirs : Str → List (Str × FsTree) → List (Str × List Str)
  | _, [] => []
  | root, (name, sub) :: rest =>
    walkTree (pjoin root name) sub ++ walkDirs root rest
end

/-- `filename.endswith('.md')`. -/
def mdEndswith (f : Str) : Bool := ".md".data.isSuffixOf f

/-- The directory branch of `main`: for every `(root, filenames)` of
the walk, every filename ending in `.md` is joined to its root and
converted (against the one output path). -/
def mainDirInputs (inpath : Str) (t : FsTree) : List Str :=
  (walkTree inpath t).flatMap fun rf => (rf.2.filter mdEndswith).map (pjoin rf.1)

/-! ## Specification-side definitions

These follow the spec's words, for comparison with the definitions
translated from the code. -/

mutual
/-- Spec §4.6: “recursively discover every file” — all
`(directory, filename)` pairs of the tree. -/
def specFiles : Str → FsTree → List (Str × Str)
  | root, .node files dirs =>
    files.map (fun f => (root, f)) ++ specFilesDirs root dirs

def specFilesDirs : Str → List (Str × FsTree) → List (Str × Str)
  | _, [] => []
  | root, (name, sub) :: rest =>
    specFiles (pjoin root name) sub ++ specFilesDirs root rest
end

/-- A character that survives `_dump_str` unescaped and can take part
in none of the regex pass's metacharacters. -/
def niceChar (c : Char) : Bool :=
  ¬ (c = '\\' ∨ c = '\r' ∨ c = '\n' ∨ c = '"' ∨ c = '\t' ∨ c = '\x0c' ∨
     c = '\x08' ∨ c = '[' ∨ c = ']' ∨ c = ',')

def niceStr (s : Str) : Bool := s.all niceChar

/-- A flat value of the shapes the converter actually serializes:
a plain string, a boolean, or a non-empty list of plain strings. -/
def flatNice : PyVal → Bool
  | .str s => niceStr s
  | .bool _ => true
  | .list xs =>
    ¬ xs.isEmpty &&
    xs.all fun v =>
      match v with
      | .str s => niceStr s
      | _ => false
  | _ => false

/-- A key that serializes bare. -/
def niceKey (k : Str) : Bool := ¬ k.isEmpty ∧ k.all isBareKeyChar

/-- Comma-space-separated concatenation (a single-line list body). -/
def commaSpaceSep : List Str → Str
  | [] => []
  | [q] => q
  | q :: rest => q ++ ", ".data ++ commaSpaceSep rest

/-- Spec §4.4: the value as it looks after the single-line
normalization pass — lists as `[v1, v2]` on one line, scalars as the
serializer writes them. -/
def specValue : PyVal → Str
  | .list xs => '[' :: commaSpaceSep (xs.map dumpValue) ++ [']']
  | v => dumpValue v

/-- Spec §4.4: one `key = value` line. -/
def specLine (k : Str) (v : PyVal) : Str :=
  k ++ " = ".data ++ specValue v ++ ['\n']

def specEntries : List (Str × PyVal) → Str
  | [] => []
  | (k, v) :: rest => specLine k v ++ specEntries rest

/-- The `key = value` lines `dump_sections` emits for a flat section
(before the normalization pass). -/
def entriesText : List (Str × PyVal) → Str
  | [] => []
  | (k, v) :: rest => tomlKey k ++ " = ".data ++ dumpValue v ++ '\n' :: entriesText rest

/-- The top-level `(key, value)` pairs actually emitted for a
`ZolaFront` (a `None` date or description is skipped by
`dump_sections`): `title`, then `date` as its ISO string when
present, then `description` when present. -/
def topEntries (f : ZolaFront) : List (Str × PyVal) :=
  [("title".data, f.title)] ++
  (match f.date with
   | some d => [("date".data, PyVal.str (isoformat d))]
   | Option.none => []) ++
  (match f.description with
   | .none => []
   | v => [("description".data, v)])

/-- Spec §4.4, the Metadata Encoder contract: `title`, `date` (an ISO
calendar date string, omitted when absent), `description` (omitted
when absent), then a `taxonomies` sub-table only if non-empty, then an
`extra` sub-table only if non-empty, every list on a single line. -/
def encoderSpec (f : ZolaFront) : Str :=
  specEntries (topEntries f) ++
  (if f.taxonomies.isEmpty then []
   else "\n[taxonomies]\n".data ++ specEntries f.taxonomies) ++
  (if f.extra.isEmpty then []
   else "\n[extra]\n".data ++ specEntries f.extra)

/-! ## Theorems -/

theorem readLines_append (xs ys : List Str) :
    readLines (xs ++ ys) = ys.foldl readStep (readLines xs) := by
  simp [readLines, List.foldl_append]

/-- One-step form of the invariant “no content line is collected
before the second delimiter”. -/
theorem readStep_content_step (a : ScanAcc) (l : Str)
    (h : a.state ≠ .content → a.content = [])
    (h2 : (readStep a l).state ≠ .content) : (readStep a l).content = [] := by
  by_cases hdl : isDelimLine l <;> cases ha : a.state <;>
    simp [readStep, ha, hdl] at h2 ⊢ <;>
    exact h (by simp [ha])

/-- Before the second delimiter is seen, nothing has been put into
`content`. -/
theorem readStep_content_invariant (lines : List Str) (a : ScanAcc)
    (h : a.state ≠ .content → a.content = []) :
    (lines.foldl readStep a).state ≠ .content →
      (lines.foldl readStep a).content = [] := by
  induction lines generalizing a with
  | nil => exact h
  | cons l rest ih =>
    intro hne
    exact ih (readStep a l) (readStep_content_step a l h) hne

/-- **C7.** The Document Reader is the 3-state classifier over input
lines: a line equal to `---` after stripping moves `UNKNOWN` to
`IN_METADATA` (first occurrence) and `IN_METADATA` to `IN_CONTENT`
(second occurrence); while in `IN_METADATA` a non-delimiter line is
appended verbatim to the metadata lines; while in `IN_CONTENT` every
line is appended verbatim to the content lines; and a file whose scan
never reaches `IN_CONTENT` yields empty content lines with whatever
metadata was collected (the scan is total, so this is not a failure of
the Reader). -/
theorem C7_document_reader (a : ScanAcc) (l : Str) (lines : List Str) :
    (isDelimLine l = true → a.state = .unknown →
        readStep a l = { a with state := .front_matter }) ∧
    (isDelimLine l = true → a.state = .front_matter →
        readStep a l = { a with state := .content }) ∧
    (isDelimLine l = false → a.state = .front_matter →
        readStep a l = { a with raw_front := a.raw_front ++ [l] }) ∧
    (a.state = .content →
        readStep a l = { a with content := a.content ++ [l] }) ∧
    ((readLines lines).state ≠ .content → (readLines lines).content = []) := by
  refine ⟨?_, ?_, ?_, ?_, ?_⟩
  · intro hd hs; simp [readStep, hd, hs]
  · intro hd hs; simp [readStep, hd, hs]
  · intro hd hs; simp [readStep, hd, hs]
  · intro hs
    cases ha : a.state <;> simp_all [readStep]
  · exact readStep_content_invariant lines ⟨.unknown, [], []⟩ (fun _ => rfl)

theorem C7_document_reader_witness :
    (isDelimLine "---\n".data = true) ∧
    (readStep ⟨.unknown, [], []⟩ "---\n".data
      = { state := .front_matter, raw_front := [], content := [] }) ∧
    ((readLines ["---\n".data, "title: x\n".data]).state ≠ .content) ∧
    ((readLines ["---\n".data, "title: x\n".data]).content = []) :=
  ⟨by decide,
   (C7_document_reader ⟨.unknown, [], []⟩ "---\n".data []).1 (by decide) rfl,
   by decide,
   (C7_document_reader ⟨.unknown, [], []⟩ "---\n".data
      ["---\n".data, "title: x\n".data]).2.2.2.2 (by decide)⟩

/-- **C10.** Every line appearing before the first delimiter line is
silently discarded by the Document Reader: scanning `pre ++ rest`,
where no line of `pre` strips to `---`, gives exactly the result of
scanning `rest` alone, so the lines of `pre` end up in neither the
metadata lines nor the content lines. -/
theorem C10_pre_delimiter_lines_discarded (pre rest : List Str)
    (h : ∀ l ∈ pre, isDelimLine l = false) :
    readLines (pre ++ rest) = readLines rest := by
  induction pre with
  | nil => rfl
  | cons l xs ih =>
    have hstep : readStep ⟨.unknown, [], []⟩ l = ⟨.unknown, [], []⟩ := by
      simp [readStep, h l (by simp)]
    have : readLines ((l :: xs) ++ rest) = (xs ++ rest).foldl readStep ⟨.unknown, [], []⟩ := by
      simp [readLines, hstep]
    rw [this]
    exact ih (fun m hm => h m (by simp [hm]))

theorem C10_pre_delimiter_lines_discarded_witness :
    readLines ["junk\n".data, "# heading\n".data, "---\n".data, "t: 1\n".data]
      = readLines ["---\n".data, "t: 1\n".data] :=
  C10_pre_delimiter_lines_discarded
    ["junk\n".data, "# heading\n".data] ["---\n".data, "t: 1\n".data]
    (by decide)

theorem alookup_aerase (d : List (Str × PyVal)) (k k' : Str) :
    alookup (aerase d k) k' = if k' = k then Option.none else alookup d k' := by
  induction d with
  | nil => simp [aerase, alookup]
  | cons p rest ih =>
    obtain ⟨pk, pv⟩ := p
    by_cases hpk : pk = k
    · have hfilter : aerase ((pk, pv) :: rest) k = aerase rest k := by
        simp [aerase, List.filter_cons, hpk]
      rw [hfilter, ih]
      by_cases hk' : k' = k
      · simp [hk']
      · have hne : ¬ pk = k' := by rw [hpk]; exact fun h => hk' h.symm
        simp [hk', alookup, hne]
    · have hfilter : aerase ((pk, pv) :: rest) k = (pk, pv) :: aerase rest k := by
        simp [aerase, List.filter_cons, hpk]
      rw [hfilter]
      by_cases hpq : pk = k'
      · have hk' : ¬ k' = k := fun h => hpk (by rw [hpq, h])
        simp [alookup, hpq, hk']
      · simp [alookup, hpq, ih]

theorem alookup_aset_self (d : List (Str × PyVal)) (k : Str) (v : PyVal) :
    alookup (aset d k v) k = some v := by
  induction d with
  | nil => simp [aset, alookup]
  | cons p rest ih =>
    obtain ⟨pk, pv⟩ := p
    by_cases hk : pk = k <;> simp [aset, alookup, hk, ih]

theorem alookup_aset_other (d : List (Str × PyVal)) (k k' : Str) (v : PyVal)
    (h : k' ≠ k) : alookup (aset d k v) k' = alookup d k' := by
  induction d with
  | nil => simp [aset, alookup, Ne.symm h]
  | cons p rest ih =>
    obtain ⟨pk, pv⟩ := p
    by_cases hk : pk = k
    · have h1 : ¬ k = k' := Ne.symm h
      have h2 : ¬ pk = k' := by rw [hk]; exact h1
      simp [aset, hk, alookup, h1, h2]
    · simp [aset, alookup, hk, ih]

/-- Looking a kept key up in a key-filtered dict. -/
theorem alookup_filter (d : List (Str × PyVal)) (p : Str → Bool) (k : Str)
    (hp : p k = true) :
    alookup (d.filter (fun q => p q.1)) k = alookup d k := by
  induction d with
  | nil => rfl
  | cons q rest ih =>
    obtain ⟨qk, qv⟩ := q
    rw [List.filter_cons]
    by_cases hq : qk = k
    · subst hq
      simp [hp, alookup, ih]
    · by_cases hpq : p qk <;> simp [hpq, alookup, hq, ih]

theorem alookup_filter_out (d : List (Str × PyVal)) (p : Str → Bool) (k : Str)
    (hp : p k = false) :
    alookup (d.filter (fun q => p q.1)) k = Option.none := by
  induction d with
  | nil => rfl
  | cons q rest ih =>
    obtain ⟨qk, qv⟩ := q
    rw [List.filter_cons]
    by_cases hq : qk = k
    · subst hq; simp [hp, ih]
    · by_cases hpq : p qk <;> simp [hpq, alookup, hq, ih]

theorem alookup_append (l1 l2 : List (Str × PyVal)) (k : Str) :
    alookup (l1 ++ l2) k =
      match alookup l1 k with
      | some v => some v
      | Option.none => alookup l2 k := by
  induction l1 with
  | nil => simp [alookup]
  | cons p rest ih =>
    obtain ⟨pk, pv⟩ := p
    by_cases hk : pk = k <;> simp [alookup, hk, ih]

/-- Unpacking a successful `JekyllFront.init`: the named fields and
the shape of `extra`. -/
theorem init_ok_fields (front : List (Str × PyVal)) (f : JekyllFront)
    (hok : JekyllFront.init front = .ok f) :
    alookup front "title".data = some f.title ∧
    f.date = (alookup front "date".data).getD .none ∧
    f.subtitle = (alookup front "subtitle".data).getD .none ∧
    f.author = (alookup front "author".data).getD .none ∧
    f.tags = (alookup front "tags".data).getD .none ∧
    f.extra = extraAfterInit front := by
  unfold JekyllFront.init at hok
  cases hT : alookup front "title".data with
  | none => rw [hT] at hok; exact absurd hok (by simp)
  | some t =>
    rw [hT] at hok
    simp only at hok
    cases hL : alookup (front.filter (fun p => p.1 ∉ jekyllFields)) "layout".data with
    | none => rw [hL] at hok; exact absurd hok (by simp)
    | some lay =>
      rw [hL] at hok
      simp only [Except.ok.injEq] at hok
      subst hok
      simp [extraAfterInit]

/-- A missing `layout` key makes `JekyllFront.init` raise the
`KeyError`. -/
theorem init_missing_layout (front : List (Str × PyVal))
    (hT : (alookup front "title".data).isSome = true)
    (hL : alookup front "layout".data = Option.none) :
    JekyllFront.init front = .error (.keyError "layout") := by
  obtain ⟨t, hT⟩ := Option.isSome_iff_exists.mp hT
  have hL' : alookup (front.filter (fun p => p.1 ∉ jekyllFields)) "layout".data
      = Option.none := by
    rw [alookup_filter front (fun k => k ∉ jekyllFields) "layout".data (by decide)]
    exact hL
  unfold JekyllFront.init
  rw [hT]
  simp only [hL']

/-- A missing `title` key makes `JekyllFront.init` raise the
`TypeError` for the missing required argument. -/
theorem init_missing_title (front : List (Str × PyVal))
    (hT : alookup front "title".data = Option.none) :
    JekyllFront.init front
      = .error (.typeError
          "__init__() missing 1 required positional argument: 'title'") := by
  unfold JekyllFront.init
  rw [hT]

theorem dateMatch_pos (cs : Str) (h : dateShaped (cs.take 10) = true) :
    dateMatch cs = some (cs.take 10) := by
  unfold dateMatch
  simp [h]

theorem dateMatch_neg (cs : Str) (h : dateShaped (cs.take 10) = false) :
    dateMatch cs = Option.none := by
  unfold dateMatch
  simp [h]

/-- `reSearchDate` returns the slice at the leftmost matching
position: existence at `i` plus failure strictly before `i` pin the
result down. -/
theorem reSearchDate_leftmost (cs : Str) (i : Nat)
    (hi : dateShaped ((cs.drop i).take 10) = true)
    (hmin : ∀ j, j < i → dateShaped ((cs.drop j).take 10) = false) :
    reSearchDate cs = some ((cs.drop i).take 10) := by
  induction cs generalizing i with
  | nil =>
    rw [List.drop_nil, List.take_nil] at hi
    exact absurd hi (by decide)
  | cons c rest ih =>
    cases i with
    | zero =>
      simp only [List.drop_zero] at hi ⊢
      unfold reSearchDate
      rw [dateMatch_pos _ hi]
    | succ i' =>
      have h0 := hmin 0 (Nat.succ_pos i')
      simp only [List.drop_zero] at h0
      unfold reSearchDate
      rw [dateMatch_neg _ h0]
      simp only [List.drop_succ_cons] at hi ⊢
      exact ih i' hi (fun j hj => by
        have := hmin (j + 1) (Nat.succ_lt_succ hj)
        simpa using this)

/-- A date-shaped slice has ten characters, so it is not empty. -/
theorem dateShaped_ne_nil (s : Str) (h : dateShaped s = true) : s ≠ [] := by
  intro hnil
  rw [hnil] at h
  exact absurd h (by decide)

/-- **C1.** If the input file's path contains a `YYYY-MM-DD`-shaped
substring (four digits, hyphen, two digits, hyphen, two digits), then
after construction the document's date is exactly the slice at the
leftmost such position — regardless of what `date` the front matter
carried — and the date of the converted output, when the conversion
succeeds, is the parse of that same slice. -/
theorem C1_path_date_overrides_front_matter (f : JekyllFront) (path : Str) (i : Nat)
    (hi : dateShaped ((path.drop i).take 10) = true)
    (hmin : ∀ j, j < i → dateShaped ((path.drop j).take 10) = false) :
    (JekyllDoc.extract_date f path).date = .str ((path.drop i).take 10) ∧
    (∀ zf, (JekyllDoc.extract_date f path).to_zola_front = .ok zf →
      zf.date = (strptimeDate (.str ((path.drop i).take 10))).toOption) := by
  have hsearch := reSearchDate_leftmost path i hi hmin
  have hext : JekyllDoc.extract_date f path
      = { f with date := .str ((path.drop i).take 10) } := by
    unfold JekyllDoc.extract_date
    rw [hsearch]
  refine ⟨by rw [hext], ?_⟩
  intro zf hzf
  rw [hext] at hzf
  have hne := dateShaped_ne_nil _ hi
  have htr : pyTruthy (.str ((path.drop i).take 10)) = true := by
    simp [pyTruthy, hne]
  unfold JekyllFront.to_zola_front at hzf
  simp only [htr, if_true] at hzf
  cases hsp : strptimeDate (.str ((path.drop i).take 10)) with
  | error e =>
    rw [hsp] at hzf
    simp [Except.map] at hzf
  | ok pd =>
    rw [hsp] at hzf
    simp only [Except.map, Except.ok.injEq] at hzf
    subst hzf
    rfl

theorem C1_path_date_overrides_front_matter_witness :
    (let path := "_posts/2023-05-01-post.md".data
     let f : JekyllFront :=
       ⟨.str "t".data, .str "2020-01-01".data, .none, .none, .none, []⟩
     (JekyllDoc.extract_date f path).date = .str "2023-05-01".data) := by
  have h := (C1_path_date_overrides_front_matter
    ⟨.str "t".data, .str "2020-01-01".data, .none, .none, .none, []⟩
    "_posts/2023-05-01-post.md".data 7
    (by decide) (by decide)).1
  exact h

/-- **C2 (counterexample).** The claim says every decoded key other
than the five field names goes into `extra`, the generator-name key
(`layout`) being the only exception.  But the legacy cover-image key
`header-img` — not one of the five, not `layout` — does *not* go into
`extra`: construction renames it to `cover`. -/
theorem C2_extra_keys_counterexample :
    (JekyllFront.init
      [("title".data, .str "t".data), ("layout".data, .str "post".data),
       ("header-img".data, .str "x.png".data)]).map
      (fun f => (alookup f.extra "header-img".data, alookup f.extra "cover".data))
    = .ok (Option.none, some (.str "x.png".data)) := rfl

/-- **C2 (amended).** During construction every decoded key other
than `title`, `date`, `subtitle`, `author`, `tags` goes into `extra`,
except the generator-name key `layout`, which is removed
unconditionally, and the legacy cover-image key `header-img`, whose
value moves to the key `cover`; and for any input whose decoded
metadata lacks `layout` (with `title` present, so construction gets
that far), construction raises the `KeyError`, which aborts the whole
run with no file processed. -/
theorem C2_extra_fields_except_layout_and_cover (front : List (Str × PyVal)) :
    ((alookup front "title".data).isSome = true →
      alookup front "layout".data = Option.none →
      JekyllFront.init front = .error (.keyError "layout")) ∧
    (∀ f, JekyllFront.init front = .ok f →
      (∀ k, k ∉ jekyllFields → k ≠ "layout".data → k ≠ "header-img".data →
        k ≠ "cover".data → alookup f.extra k = alookup front k) ∧
      alookup f.extra "layout".data = Option.none ∧
      alookup f.extra "header-img".data = Option.none ∧
      (∀ k, k ∈ jekyllFields → alookup f.extra k = Option.none) ∧
      (∀ v, alookup front "header-img".data = some v →
        alookup f.extra "cover".data = some v) ∧
      (alookup front "header-img".data = Option.none →
        alookup f.extra "cover".data = alookup front "cover".data)) ∧
    (∀ fi rest outPath outIsDir,
      fi.decoded = .ok (.dict front) →
      (alookup front "title".data).isSome = true →
      alookup front "layout".data = Option.none →
      runFiles outPath outIsDir (fi :: rest) = ([], some (.keyError "layout"))) := by
  have hfilter_hdr :
      alookup (front.filter (fun p => p.1 ∉ jekyllFields)) "header-img".data
        = alookup front "header-img".data :=
    alookup_filter front (fun k => k ∉ jekyllFields) _ (by decide)
  have hfilter_cov :
      alookup (front.filter (fun p => p.1 ∉ jekyllFields)) "cover".data
        = alookup front "cover".data :=
    alookup_filter front (fun k => k ∉ jekyllFields) _ (by decide)
  refine ⟨init_missing_layout front, ?_, ?_⟩
  · intro f hok
    have hextra := (init_ok_fields front f hok).2.2.2.2.2
    have he1 : ∀ k, k ≠ "layout".data →
        alookup (aerase (front.filter (fun p => p.1 ∉ jekyllFields)) "layout".data) k
          = alookup (front.filter (fun p => p.1 ∉ jekyllFields)) k := by
      intro k hk
      rw [alookup_aerase]
      simp [hk]
    refine ⟨?_, ?_, ?_, ?_, ?_, ?_⟩
    · intro k hk hk1 hk2 hk3
      rw [hextra]
      unfold extraAfterInit
      cases hH : alookup (aerase (front.filter (fun p => p.1 ∉ jekyllFields))
          "layout".data) "header-img".data with
      | none =>
        simp only [hH]
        rw [he1 k hk1]
        exact alookup_filter front (fun k => k ∉ jekyllFields) k (by simpa using hk)
      | some v =>
        simp only [hH]
        rw [alookup_aset_other _ _ _ _ hk3, alookup_aerase]
        simp only [hk2, if_false]
        rw [he1 k hk1]
        exact alookup_filter front (fun k => k ∉ jekyllFields) k (by simpa using hk)
    · rw [hextra]
      unfold extraAfterInit
      cases hH : alookup (aerase (front.filter (fun p => p.1 ∉ jekyllFields))
          "layout".data) "header-img".data with
      | none =>
        simp only [hH]
        rw [alookup_aerase]
        simp
      | some v =>
        simp only [hH]
        rw [alookup_aset_other _ _ _ _ (by decide), alookup_aerase]
        rw [if_neg (by decide : ¬ ("layout".data = "header-img".data))]
        rw [alookup_aerase]
        simp
    · rw [hextra]
      unfold extraAfterInit
      cases hH : alookup (aerase (front.filter (fun p => p.1 ∉ jekyllFields))
          "layout".data) "header-img".data with
      | none => simp only [hH]
      | some v =>
        simp only [hH]
        rw [alookup_aset_other _ _ _ _ (by decide), alookup_aerase]
        simp
    · intro k hk
      have hpk : (decide (k ∉ jekyllFields)) = false := by
        simp [hk]
      have hk1 : k ≠ "layout".data := by
        intro h; rw [h] at hk; exact absurd hk (by decide)
      have hk2 : k ≠ "header-img".data := by
        intro h; rw [h] at hk; exact absurd hk (by decide)
      have hk3 : k ≠ "cover".data := by
        intro h; rw [h] at hk; exact absurd hk (by decide)
      rw [hextra]
      unfold extraAfterInit
      cases hH : alookup (aerase (front.filter (fun p => p.1 ∉ jekyllFields))
          "layout".data) "header-img".data with
      | none =>
        simp only [hH]
        rw [he1 k hk1]
        exact alookup_filter_out front (fun k => k ∉ jekyllFields) k (by simpa using hk)
      | some v =>
        simp only [hH]
        rw [alookup_aset_other _ _ _ _ hk3, alookup_aerase]
        simp only [hk2, if_false]
        rw [he1 k hk1]
        exact alookup_filter_out front (fun k => k ∉ jekyllFields) k (by simpa using hk)
    · intro v hv
      rw [hextra]
      unfold extraAfterInit
      have hH : alookup (aerase (front.filter (fun p => p.1 ∉ jekyllFields))
          "layout".data) "header-img".data = some v := by
        rw [he1 _ (by decide), hfilter_hdr]; exact hv
      simp only [hH]
      exact alookup_aset_self _ _ _
    · intro hv
      rw [hextra]
      unfold extraAfterInit
      have hH : alookup (aerase (front.filter (fun p => p.1 ∉ jekyllFields))
          "layout".data) "header-img".data = Option.none := by
        rw [he1 _ (by decide), hfilter_hdr]; exact hv
      simp only [hH]
      rw [he1 _ (by decide), hfilter_cov]
  · intro fi rest outPath outIsDir hdec hT hL
    have hinit := init_missing_layout front hT hL
    have htr : pyTruthy (.dict front) = true := by
      obtain ⟨t, ht⟩ := Option.isSome_iff_exists.mp hT
      cases front with
      | nil => exact absurd ht (by simp [alookup])
      | cons p rest' => simp [pyTruthy]
    have hcf : convertFile (.ok (.dict front)) (readLines fi.lines).content
        fi.path outPath outIsDir = .fatal (.keyError "layout") := by
      unfold convertFile
      simp only [htr, if_true]
      unfold JekyllDoc.init
      rw [hinit]
      rfl
    unfold runFiles
    rw [hdec, hcf]

/-- Unpacking a successful `to_zola_front`. -/
theorem to_zola_ok_fields (f : JekyllFront) (zf : ZolaFront)
    (hok : f.to_zola_front = .ok zf) :
    zf.title = f.title ∧ zf.description = f.subtitle ∧ zf.author = f.author ∧
    zf.extra = f.extra ∧
    zf.taxonomies =
      (if pyTruthy f.tags then [("tags".data, f.tags)] else []) ++
      (if pyTruthy f.author then
        [("author".data,
          match f.author with
          | .list xs => .list xs
          | a => .list [a])]
       else []) := by
  unfold JekyllFront.to_zola_front at hok
  by_cases hd : pyTruthy f.date
  · simp only [hd, if_true] at hok
    cases hsp : strptimeDate f.date with
    | error e => rw [hsp] at hok; exact absurd hok (by simp [Except.map])
    | ok pd =>
      rw [hsp] at hok
      simp only [Except.map, Except.ok.injEq] at hok
      subst hok
      exact ⟨rfl, rfl, rfl, rfl, rfl⟩
  · simp only [hd, Bool.false_eq_true, if_false] at hok
    simp only [Except.ok.injEq] at hok
    subst hok
    exact ⟨rfl, rfl, rfl, rfl, rfl⟩

/-- **C4.** For a scalar (string, truthy) `author`, the destination
`taxonomies` maps `author` to the one-element list of that string
while the top-level `author` stays the scalar as typed; a (truthy)
list `author` is placed in `taxonomies` unchanged; a falsy (empty or
absent) `author` or `tags` contributes no `taxonomies` key at all. -/
theorem C4_author_taxonomy (f : JekyllFront) (zf : ZolaFront)
    (hok : f.to_zola_front = .ok zf) :
    (∀ s, f.author = .str s → s.isEmpty = false →
      alookup zf.taxonomies "author".data = some (.list [.str s]) ∧
      zf.author = .str s) ∧
    (∀ xs, f.author = .list xs → xs.isEmpty = false →
      alookup zf.taxonomies "author".data = some (.list xs)) ∧
    (pyTruthy f.author = false →
      alookup zf.taxonomies "author".data = Option.none) ∧
    (pyTruthy f.tags = false →
      alookup zf.taxonomies "tags".data = Option.none) := by
  obtain ⟨-, -, hauthor, -, htax⟩ := to_zola_ok_fields f zf hok
  have hlook : ∀ v,
      alookup ((if pyTruthy f.tags then [("tags".data, f.tags)] else []) ++ v)
        "author".data = alookup v "author".data := by
    intro v
    by_cases ht : pyTruthy f.tags <;>
      simp [ht, alookup_append, alookup]
  refine ⟨?_, ?_, ?_, ?_⟩
  · intro s hs hne
    have htr : pyTruthy f.author = true := by
      rw [hs]; simp [pyTruthy, hne]
    rw [htax, hlook, htr]
    rw [hs]
    simp [alookup, hauthor, hs]
  · intro xs hxs hne
    have htr : pyTruthy f.author = true := by
      rw [hxs]; simp [pyTruthy, hne]
    rw [htax, hlook, htr, hxs]
    simp [alookup]
  · intro hfa
    rw [htax, hlook, hfa]
    simp [alookup]
  · intro hft
    rw [htax, hft]
    by_cases ha : pyTruthy f.author <;> simp [ha, alookup]

theorem C4_author_taxonomy_witness :
    (JekyllFront.mk (.str "t".data) .none .none (.str "Alice".data) .none
        []).to_zola_front
      = .ok { title := .str "t".data, date := Option.none, description := .none,
              author := .str "Alice".data, extra := [],
              taxonomies := [("author".data, .list [.str "Alice".data])] } ∧
    alookup [("author".data, (.list [.str "Alice".data] : PyVal))] "author".data
      = some (.list [.str "Alice".data]) ∧
    ({ title := .str "t".data, date := Option.none, description := .none,
       author := .str "Alice".data, extra := [],
       taxonomies := [("author".data, .list [.str "Alice".data])] } : ZolaFront).author
      = .str "Alice".data :=
  ⟨rfl,
   ((C4_author_taxonomy
      (JekyllFront.mk (.str "t".data) .none .none (.str "Alice".data) .none [])
      _ rfl).1 "Alice".data rfl rfl).1,
   ((C4_author_taxonomy
      (JekyllFront.mk (.str "t".data) .none .none (.str "Alice".data) .none [])
      _ rfl).1 "Alice".data rfl rfl).2⟩

/-- Unpacking a successful `JekyllDoc.init`. -/
theorem jekyllDoc_init_ok (d : List (Str × PyVal)) (content : Str) (path : Str)
    (doc : JekyllDoc) (h : JekyllDoc.init d content path = .ok doc) :
    ∃ jf, JekyllFront.init d = .ok jf ∧
      doc.front = JekyllDoc.extract_date jf path ∧ doc.content = content := by
  unfold JekyllDoc.init at h
  cases hj : JekyllFront.init d with
  | error e => rw [hj] at h; exact absurd h (by simp [Except.map])
  | ok jf =>
    rw [hj] at h
    simp only [Except.map, Except.ok.injEq] at h
    exact ⟨jf, rfl, by rw [← h], by rw [← h]⟩

/-- `extract_date` only touches the `date` field. -/
theorem extract_date_title (f : JekyllFront) (path : Str) :
    (JekyllDoc.extract_date f path).title = f.title := by
  unfold JekyllDoc.extract_date
  cases reSearchDate path <;> rfl

/-- **C5 (counterexample).** The claim says a document whose metadata
block is empty *or unparsable* is skipped with a diagnostic and the
run continues.  For an unparsable block (PyYAML raises, e.g. on a
metadata block consisting of `{`), nothing is caught: the run aborts
with no outcome at all, and the following file is never processed. -/
theorem C5_unparsable_aborts_counterexample :
    runFiles [] false
      [⟨["---\n".data, "\x7b\n".data, "---\n".data],
        .error (.yamlError "while parsing a flow node"), "bad.md".data⟩,
       ⟨["---\n".data, "---\n".data], .ok .none, "next.md".data⟩]
      = ([], some (.yamlError "while parsing a flow node")) ∧
    (runFiles [] false
      [⟨["---\n".data, "\x7b\n".data, "---\n".data],
        .error (.yamlError "while parsing a flow node"), "bad.md".data⟩,
       ⟨["---\n".data, "---\n".data], .ok .none, "next.md".data⟩]).1
      ≠ [ConvertOutcome.skipped, ConvertOutcome.skipped] := by
  refine ⟨rfl, ?_⟩
  decide

/-- **C5 (amended).** A decoded metadata mapping without `title`
aborts the whole run with the `TypeError` (no per-file isolation: no
outcome is recorded, later files are never reached); a document whose
metadata block is empty (decoded to `None`) is skipped with a
diagnostic and the run continues with the remaining files; a document
whose metadata block is unparsable makes the decoder raise, which
likewise aborts the whole run. -/
theorem C5_missing_title_aborts_empty_skipped (d : List (Str × PyVal))
    (fi fe fu : FileInput) (rest : List FileInput) (outPath : Str)
    (outIsDir : Bool) (e : PyErr) :
    (fi.decoded = .ok (.dict d) → d.isEmpty = false →
      alookup d "title".data = Option.none →
      runFiles outPath outIsDir (fi :: rest)
        = ([], some (.typeError
            "__init__() missing 1 required positional argument: 'title'"))) ∧
    (fe.decoded = .ok .none →
      runFiles outPath outIsDir (fe :: rest)
        = (.skipped :: (runFiles outPath outIsDir rest).1,
           (runFiles outPath outIsDir rest).2)) ∧
    (fu.decoded = .error e →
      runFiles outPath outIsDir (fu :: rest) = ([], some e)) := by
  refine ⟨?_, ?_, ?_⟩
  · intro hdec hd ht
    have htr : pyTruthy (.dict d) = true := by simp [pyTruthy, hd]
    have hcf : convertFile (.ok (.dict d)) (readLines fi.lines).content
        fi.path outPath outIsDir
        = .fatal (.typeError
            "__init__() missing 1 required positional argument: 'title'") := by
      unfold convertFile
      simp only [htr, if_true]
      unfold JekyllDoc.init
      rw [init_missing_title d ht]
      rfl
    unfold runFiles
    rw [hdec, hcf]
  · intro hdec
    have hcf : convertFile fe.decoded (readLines fe.lines).content
        fe.path outPath outIsDir = .skipped := by rw [hdec]; rfl
    simp [runFiles, hcf]
  · intro hdec
    have hcf : convertFile (.error e) (readLines fu.lines).content
        fu.path outPath outIsDir = .fatal e := rfl
    unfold runFiles
    rw [hdec, hcf]

theorem C5_missing_title_aborts_empty_skipped_witness :
    runFiles [] false
      [⟨["---\n".data, "layout: post\n".data, "---\n".data],
        .ok (.dict [("layout".data, .str "post".data)]), "a.md".data⟩,
       ⟨[], .ok .none, "b.md".data⟩]
      = ([], some (.typeError
          "__init__() missing 1 required positional argument: 'title'")) ∧
    runFiles [] false
      [⟨["---\n".data, "---\n".data], .ok .none, "b.md".data⟩,
       ⟨[], .error (.yamlError "boom"), "c.md".data⟩]
      = ([.skipped], some (.yamlError "boom")) :=
  ⟨(C5_missing_title_aborts_empty_skipped
      [("layout".data, .str "post".data)]
      ⟨["---\n".data, "layout: post\n".data, "---\n".data],
        .ok (.dict [("layout".data, .str "post".data)]), "a.md".data⟩
      ⟨[], .ok .none, "b.md".data⟩ ⟨[], .ok .none, "b.md".data⟩
      [⟨[], .ok .none, "b.md".data⟩] [] false (.yamlError "boom")).1
      rfl rfl rfl,
   ((C5_missing_title_aborts_empty_skipped
      [] ⟨[], .ok .none, "b.md".data⟩
      ⟨["---\n".data, "---\n".data], .ok .none, "b.md".data⟩
      ⟨[], .ok .none, "b.md".data⟩
      [⟨[], .error (.yamlError "boom"), "c.md".data⟩] [] false
      (.yamlError "boom")).2.1 rfl).trans rfl⟩

/-- **C8.** For a successfully converted document the written text is
exactly the target delimiter `+++`, the encoded metadata, the target
delimiter again, a blank separator line, and the original content
lines verbatim; and the title carried into the encoded front matter is
exactly the `title` value of the decoded metadata, unchanged. -/
theorem C8_written_output_shape (d : List (Str × PyVal)) (contentLines : List Str)
    (inPath outPath : Str) (outIsDir : Bool) (t : PyVal) (doc : JekyllDoc)
    (zf : ZolaFront)
    (hd : d.isEmpty = false)
    (ht : alookup d "title".data = some t)
    (hdoc : JekyllDoc.init d contentLines.flatten inPath = .ok doc)
    (hz : doc.front.to_zola_front = .ok zf) :
    convertFile (.ok (.dict d)) contentLines inPath outPath outIsDir
      = .written (outTarget outPath outIsDir inPath)
          ("+++\n".data ++ zf.to_toml ++ "+++\n\n".data ++ contentLines.flatten) ∧
    zf.title = t := by
  have htr : pyTruthy (.dict d) = true := by simp [pyTruthy, hd]
  obtain ⟨jf, hjf, hfr, hc⟩ := jekyllDoc_init_ok d _ inPath doc hdoc
  constructor
  · unfold convertFile
    simp only [htr, if_true, hdoc, hz]
    simp [ZolaDoc.to_string, hc]
  · have h1 := (to_zola_ok_fields _ _ hz).1
    have h2 : doc.front.title = jf.title := by
      rw [hfr]; exact extract_date_title jf inPath
    have h3 : alookup d "title".data = some jf.title := (init_ok_fields d jf hjf).1
    exact h1.trans (h2.trans (Option.some.inj (h3.symm.trans ht)))

theorem C8_written_output_shape_witness :
    convertFile
      (.ok (.dict [("title".data, .str "Hi".data), ("layout".data, .str "post".data)]))
      ["body\n".data] "p/2021-02-03-x.md".data "out".data true
      = .written "out/2021-02-03-x.md".data
          ("+++\n".data ++
           (ZolaFront.mk (.str "Hi".data) (some ⟨2021, 2, 3⟩) .none .none [] []).to_toml ++
           "+++\n\n".data ++ ["body\n".data].flatten) ∧
    (ZolaFront.mk (.str "Hi".data) (some ⟨2021, 2, 3⟩) .none .none [] []).title
      = .str "Hi".data :=
  C8_written_output_shape
    [("title".data, .str "Hi".data), ("layout".data, .str "post".data)]
    ["body\n".data] "p/2021-02-03-x.md".data "out".data true
    (.str "Hi".data)
    ⟨⟨.str "Hi".data, .str "2021-02-03".data, .none, .none, .none, []⟩, "body\n".data⟩
    (ZolaFront.mk (.str "Hi".data) (some ⟨2021, 2, 3⟩) .none .none [] [])
    rfl rfl rfl rfl

theorem C2_extra_fields_except_layout_and_cover_witness :
    JekyllFront.init [("title".data, .str "t".data)] = .error (.keyError "layout") ∧
    alookup (JekyllFront.mk (.str "t".data) .none .none .none .none
      [("foo".data, .str "v".data)]).extra "foo".data = some (.str "v".data) :=
  ⟨(C2_extra_fields_except_layout_and_cover [("title".data, .str "t".data)]).1 rfl rfl,
   (((C2_extra_fields_except_layout_and_cover
        [("title".data, .str "t".data), ("layout".data, .str "post".data),
         ("foo".data, .str "v".data)]).2.1
      (JekyllFront.mk (.str "t".data) .none .none .none .none
        [("foo".data, .str "v".data)]) rfl).1
      "foo".data (by decide) (by decide) (by decide) (by decide)).trans rfl⟩

theorem takeWhile_append_all (p : Char → Bool) (xs ys : List Char)
    (h : ∀ c ∈ xs, p c = true) :
    (xs ++ ys).takeWhile p = xs ++ ys.takeWhile p := by
  induction xs with
  | nil => rfl
  | cons c rest ih =>
    simp [List.takeWhile_cons, h c (by simp),
      ih (fun d hd => h d (by simp [hd]))]

theorem takeWhile_all (p : Char → Bool) (xs : List Char)
    (h : ∀ c ∈ xs, p c = true) : xs.takeWhile p = xs := by
  induction xs with
  | nil => rfl
  | cons c rest ih =>
    simp [List.takeWhile_cons, h c (by simp),
      ih (fun d hd => h d (by simp [hd]))]

theorem baseName_no_slash (f : Str) (hf : '/' ∉ f) : baseName f = f := by
  unfold baseName
  rw [takeWhile_all _ f.reverse (by
    intro c hc
    simp only [List.mem_reverse] at hc
    simp only [decide_eq_true_eq]
    exact fun h => hf (h ▸ hc))]
  simp

theorem baseName_append_slash (a f : Str) (hf : '/' ∉ f) :
    baseName (a ++ '/' :: f) = f := by
  unfold baseName
  have hrev : (a ++ '/' :: f).reverse = f.reverse ++ '/' :: a.reverse := by
    simp
  rw [hrev, takeWhile_append_all _ f.reverse ('/' :: a.reverse) (by
    intro c hc
    simp only [List.mem_reverse] at hc
    simp only [decide_eq_true_eq]
    exact fun h => hf (h ▸ hc))]
  simp [List.takeWhile_cons]

/-- `Path(...).name` undoes the join of a slash-free filename. -/
theorem baseName_pjoin (root f : Str) (hf : '/' ∉ f) :
    baseName (pjoin root f) = f := by
  unfold pjoin
  by_cases h1 : f.take 1 = ['/']
  · exfalso
    cases f with
    | nil => simp at h1
    | cons c rest =>
      simp [List.take] at h1
      exact hf (by rw [h1]; exact List.mem_cons_self _ _)
  · rw [if_neg h1]
    by_cases h2 : root.isEmpty = true ∨ root.getLast? = some '/'
    · rw [if_pos h2]
      rcases h2 with h2 | h2
      · have hroot : root = [] := List.isEmpty_iff.mp h2
        subst hroot
        simpa using baseName_no_slash f hf
      · obtain ⟨a', ha⟩ := List.getLast?_eq_some_iff.mp h2
        subst ha
        rw [List.append_assoc]
        exact baseName_append_slash a' f hf
    · rw [if_neg h2]
      exact baseName_append_slash root f hf

mutual
/-- The directory walk of `main` filters by filename and joins with
the walk root: over the whole tree this is spec §4.6's flat
filter-and-join of every `(directory, filename)` pair. -/
theorem walk_filter_tree (inpath : Str) (t : FsTree) :
    (walkTree inpath t).flatMap
        (fun rf => (rf.2.filter mdEndswith).map (pjoin rf.1))
      = ((specFiles inpath t).filter (fun p => mdEndswith p.2)).map
          (fun p => pjoin p.1 p.2) := by
  cases t with
  | node files dirs =>
    rw [walkTree, specFiles]
    simp only [List.flatMap_cons, List.filter_append, List.map_append]
    rw [walk_filter_dirs inpath dirs]
    congr 1
    rw [List.filter_map, List.map_map]
    rfl

theorem walk_filter_dirs (root : Str) (ds : List (Str × FsTree)) :
    (walkDirs root ds).flatMap
        (fun rf => (rf.2.filter mdEndswith).map (pjoin rf.1))
      = ((specFilesDirs root ds).filter (fun p => mdEndswith p.2)).map
          (fun p => pjoin p.1 p.2) := by
  cases ds with
  | nil => rfl
  | cons d rest =>
    obtain ⟨name, sub⟩ := d
    rw [walkDirs, specFilesDirs]
    simp only [List.flatMap_append, List.filter_append, List.map_append]
    rw [walk_filter_tree (pjoin root name) sub, walk_filter_dirs root rest]
end

/-- **C9.** With a directory input, the walker converts exactly the
files whose *name* ends in `.md`, anywhere in the tree, each against
the one output path; and when the output path is a directory the
destination of an input file is the output directory joined with the
file's base name alone — flat, independent of the input
subdirectory. -/
theorem C9_directory_walk_flat_output (inpath outPath : Str) (t : FsTree) :
    mainDirInputs inpath t
      = ((specFiles inpath t).filter (fun p => mdEndswith p.2)).map
          (fun p => pjoin p.1 p.2) ∧
    (∀ root f, '/' ∉ f →
      outTarget outPath true (pjoin root f) = pjoin outPath f) := by
  constructor
  · exact walk_filter_tree inpath t
  · intro root f hf
    unfold outTarget
    rw [if_pos rfl, baseName_pjoin root f hf]

theorem C9_directory_walk_flat_output_witness :
    mainDirInputs "in".data
        (.node ["top.md".data, "notes.txt".data]
          [("sub".data, .node ["2021-02-03-hello.md".data] [])])
      = ["in/top.md".data, "in/sub/2021-02-03-hello.md".data] ∧
    outTarget "out".data true "in/sub/2021-02-03-hello.md".data
      = "out/2021-02-03-hello.md".data :=
  ⟨((C9_directory_walk_flat_output "in".data "out".data
      (.node ["top.md".data, "notes.txt".data]
        [("sub".data, .node ["2021-02-03-hello.md".data] [])])).1).trans rfl,
   ((C9_directory_walk_flat_output "in".data "out".data
      (.node [] [])).2 "in/sub".data "2021-02-03-hello.md".data
      (by decide)).trans rfl⟩

/-! ### The `re.sub` scanner: length bounds and step equations -/

theorem dropWhile_length_le (p : Char → Bool) (l : Str) :
    (l.dropWhile p).length ≤ l.length := by
  induction l with
  | nil => simp
  | cons c rest ih =>
    rw [List.dropWhile_cons]
    by_cases hc : p c
    · simp [hc]
      omega
    · simp [hc]

theorem parseTail_length (cs r : Str) (h : parseTail cs = some r) :
    r.length < cs.length := by
  unfold parseTail at h
  split at h
  case h_1 c cs2 heq =>
    split at h
    case h_1 r2 heq2 =>
      simp only [Option.some.injEq] at h
      have l1 : (cs.dropWhile isPySpace).length ≤ cs.length :=
        dropWhile_length_le _ _
      have l2 : (cs2.dropWhile isPySpace).length ≤ cs2.length :=
        dropWhile_length_le _ _
      rw [heq] at l1
      rw [heq2] at l2
      simp only [List.length_cons] at l1 l2
      subst h
      omega
    case h_2 => exact absurd h (by simp)
  case h_2 => exact absurd h (by simp)

theorem findGroup_length (cs : Str) : ∀ (acc g r : Str),
    findGroup acc cs = some (g, r) → r.length < cs.length := by
  induction cs with
  | nil => intro acc g r h; exact absurd h (by simp [findGroup])
  | cons c rest ih =>
    intro acc g r h
    unfold findGroup at h
    split at h
    · exact absurd h (by simp)
    · split at h
      case h_1 r2 heq =>
        simp only [Option.some.injEq, Prod.mk.injEq] at h
        obtain ⟨h1, h2⟩ := h
        subst h2
        have := parseTail_length rest r2 heq
        simp only [List.length_cons]
        omega
      case h_2 =>
        have := ih _ _ _ h
        simp only [List.length_cons]
        omega

theorem tryWs_length (cs : Str) : ∀ (n : Nat) (g r : Str),
    tryWs cs n = some (g, r) → r.length < cs.length := by
  intro n
  induction n with
  | zero =>
    intro g r h
    unfold tryWs at h
    exact findGroup_length cs [] g r h
  | succ n ih =>
    intro g r h
    unfold tryWs at h
    cases hfg : findGroup [] (cs.drop (n + 1)) with
    | some gr =>
      obtain ⟨g', r'⟩ := gr
      rw [hfg] at h
      simp only [Option.some.injEq, Prod.mk.injEq] at h
      obtain ⟨h1, h2⟩ := h
      have hlt := findGroup_length (cs.drop (n + 1)) [] g' r' hfg
      have hd : (cs.drop (n + 1)).length ≤ cs.length := by
        simp [List.length_drop]
      rw [← h2]
      omega
    | none =>
      rw [hfg] at h
      exact ih g r h

theorem matchBracket_length (cs g r : Str) (h : matchBracket cs = some (g, r)) :
    r.length < cs.length := by
  unfold matchBracket at h
  exact tryWs_length cs _ g r h

theorem pySubAux_cons (fuel : Nat) (c : Char) (cs : Str) :
    pySubAux (fuel + 1) (c :: cs)
      = if c = '[' then
          match matchBracket cs with
          | some (g, r) => '[' :: g ++ ']' :: pySubAux fuel r
          | Option.none => c :: pySubAux fuel cs
        else c :: pySubAux fuel cs := rfl

/-- `pySubAux` ignores any fuel at or above the text's length. -/
theorem pySubAux_congr (n : Nat) : ∀ (m : Nat) (cs : Str),
    cs.length ≤ n → cs.length ≤ m → pySubAux n cs = pySubAux m cs := by
  induction n using Nat.strong_induction_on with
  | _ n ih =>
    intro m cs hn hm
    cases cs with
    | nil => cases n <;> cases m <;> rfl
    | cons c cs' =>
      simp only [List.length_cons] at hn hm
      cases n with
      | zero => omega
      | succ n' =>
        cases m with
        | zero => omega
        | succ m' =>
          rw [pySubAux_cons, pySubAux_cons]
          by_cases hc : c = '['
          · rw [if_pos hc, if_pos hc]
            cases hmb : matchBracket cs' with
            | some gr =>
              obtain ⟨g, r⟩ := gr
              have hlen := matchBracket_length cs' g r hmb
              show '[' :: g ++ ']' :: pySubAux n' r
                = '[' :: g ++ ']' :: pySubAux m' r
              rw [ih n' (by omega) m' r (by omega) (by omega)]
            | none =>
              show c :: pySubAux n' cs' = c :: pySubAux m' cs'
              rw [ih n' (by omega) m' cs' (by omega) (by omega)]
          · rw [if_neg hc, if_neg hc]
            rw [ih n' (by omega) m' cs' (by omega) (by omega)]

theorem pySub_cons_copy (c : Char) (cs : Str) (hc : ¬ c = '[') :
    pySub (c :: cs) = c :: pySub cs := by
  show pySubAux (cs.length + 1) (c :: cs) = c :: pySub cs
  rw [pySubAux_cons]
  simp only [hc, if_false]
  rfl

theorem pySub_bracket_none (cs : Str) (h : matchBracket cs = Option.none) :
    pySub ('[' :: cs) = '[' :: pySub cs := by
  show pySubAux (cs.length + 1) ('[' :: cs) = '[' :: pySub cs
  rw [pySubAux_cons, if_pos rfl, h]
  rfl

theorem pySub_bracket_some (cs g r : Str) (h : matchBracket cs = some (g, r)) :
    pySub ('[' :: cs) = '[' :: g ++ ']' :: pySub r := by
  show pySubAux (cs.length + 1) ('[' :: cs) = '[' :: g ++ ']' :: pySub r
  rw [pySubAux_cons, if_pos rfl, h]
  have := matchBracket_length cs g r h
  show '[' :: g ++ ']' :: pySubAux cs.length r = '[' :: g ++ ']' :: pySub r
  rw [pySubAux_congr cs.length r.length r (by omega) (by omega)]
  rfl

theorem pySub_copy (pre : Str) (rest : Str) (h : ∀ c ∈ pre, ¬ c = '[') :
    pySub (pre ++ rest) = pre ++ pySub rest := by
  induction pre with
  | nil => rfl
  | cons c pre' ih =>
    rw [List.cons_append, pySub_cons_copy c _ (h c (by simp)),
      ih (fun d hd => h d (by simp [hd]))]
    rfl

theorem pySub_copy_all (pre : Str) (h : ∀ c ∈ pre, ¬ c = '[') :
    pySub pre = pre := by
  have h2 := pySub_copy pre [] h
  rw [List.append_nil] at h2
  rw [h2]
  show pre ++ pySubAux 0 [] = pre
  simp [pySubAux]

theorem parseTail_ws_cons (c : Char) (z : Str) (h : isPySpace c = true) :
    parseTail (c :: z) = parseTail z := by
  unfold parseTail
  rw [List.dropWhile_cons, if_pos (by simp [h])]

theorem parseTail_head_fail (c : Char) (z : Str)
    (hws : isPySpace c = false) (hc : ¬ c = ',') :
    parseTail (c :: z) = Option.none := by
  unfold parseTail
  rw [List.dropWhile_cons, if_neg (by simp [hws])]
  split
  case h_1 cs2 heq =>
    exfalso
    apply hc
    injection heq with h1 _
  case h_2 => rfl

/-- Scanning over comma-free characters up to a non-whitespace,
non-comma character: the tail pattern fails. -/
theorem parseTail_scan_none (x : Str) (c0 : Char) (y : Str)
    (hx : ∀ c ∈ x, ¬ c = ',') (h0 : isPySpace c0 = false) (hc0 : ¬ c0 = ',') :
    parseTail (x ++ c0 :: y) = Option.none := by
  induction x with
  | nil => exact parseTail_head_fail c0 y h0 hc0
  | cons c x' ih =>
    by_cases hws : isPySpace c
    · rw [List.cons_append, parseTail_ws_cons c _ hws]
      exact ih (fun d hd => hx d (by simp [hd]))
    · exact parseTail_head_fail c _ (by simpa using hws) (hx c (by simp))

theorem niceChar_spec (c : Char) (h : niceChar c = true) :
    ¬ c = ']' ∧ ¬ c = ',' ∧ ¬ c = '[' ∧ ¬ c = '"' ∧ escChar c = [c] := by
  unfold niceChar at h
  simp only [decide_not, Bool.not_eq_true', decide_eq_false_iff_not] at h
  push_neg at h
  obtain ⟨h1, h2, h3, h4, h5, h6, h7, h8, h9, h10⟩ := h
  refine ⟨h9, h10, h8, h4, ?_⟩
  unfold escChar
  split <;> simp_all

theorem niceStr_cons (c : Char) (s : Str) (h : niceStr (c :: s) = true) :
    niceChar c = true ∧ niceStr s = true := by
  simpa [niceStr, List.all_cons] using h

theorem escFlatten_nice (s : Str) (h : niceStr s = true) :
    (s.map escChar).flatten = s := by
  induction s with
  | nil => rfl
  | cons c s' ih =>
    obtain ⟨hc, hs'⟩ := niceStr_cons c s' h
    simp only [List.map_cons, List.flatten_cons, (niceChar_spec c hc).2.2.2.2]
    rw [ih hs']
    rfl

/-- Escaping is the identity on nice strings, so `_dump_str` just
wraps them in double quotes. -/
theorem dumpStr_nice (s : Str) (h : niceStr s = true) :
    dumpStr s = '"' :: s ++ ['"'] := by
  unfold dumpStr
  rw [escFlatten_nice s h]

theorem findGroup_cons (acc : Str) (c : Char) (rest : Str) :
    findGroup acc (c :: rest)
      = if c = ']' then Option.none
        else
          match parseTail rest with
          | some r => some (acc ++ [c], r)
          | Option.none => findGroup (acc ++ [c]) rest := rfl

/-- Walking the lazy group through the characters of a nice string up
to its closing quote: the tail can only match right after the quote. -/
theorem findGroup_through (s : Str) : ∀ (acc rest' : Str), niceStr s = true →
    findGroup acc (s ++ '"' :: rest')
      = (match parseTail rest' with
         | some r => some (acc ++ s ++ ['"'], r)
         | Option.none => findGroup (acc ++ s ++ ['"']) rest') := by
  induction s with
  | nil =>
    intro acc rest' _
    rw [List.nil_append, findGroup_cons, if_neg (by decide : ¬ ('"' = ']'))]
    cases hp : parseTail rest' with
    | some r => simp
    | none => simp
  | cons c s' ih =>
    intro acc rest' hs
    obtain ⟨hnc, hs'⟩ := niceStr_cons c s' hs
    obtain ⟨hc1, hc2, _, _, _⟩ := niceChar_spec c hnc
    rw [List.cons_append, findGroup_cons, if_neg hc1,
      parseTail_scan_none s' '"' rest'
        (fun d hd => (niceChar_spec d (by
          simp only [niceStr, List.all_eq_true] at hs'
          exact hs' d hd)).2.1)
        (by decide) (by decide)]
    show findGroup (acc ++ [c]) (s' ++ '"' :: rest') = _
    rw [ih (acc ++ [c]) rest' hs']
    cases hp : parseTail rest' with
    | some r => simp
    | none => simp

theorem parseTail_comma_bracket (rest : Str) :
    parseTail (',' :: ']' :: rest) = some rest := by
  unfold parseTail
  rw [List.dropWhile_cons, if_neg (by decide)]
  show (match (']' :: rest : Str).dropWhile isPySpace with
        | ']' :: r => some r
        | _ => Option.none) = some rest
  rw [List.dropWhile_cons, if_neg (by decide)]
  rfl

theorem parseTail_comma_space_quote (z : Str) :
    parseTail (',' :: ' ' :: '"' :: z) = Option.none := by
  unfold parseTail
  rw [List.dropWhile_cons, if_neg (by decide)]
  show (match (' ' :: '"' :: z : Str).dropWhile isPySpace with
        | ']' :: r => some r
        | _ => Option.none) = Option.none
  rw [List.dropWhile_cons, if_pos (by decide), List.dropWhile_cons,
    if_neg (by decide)]
  rfl

theorem commaSpaceSep_two (a b : Str) (l : List Str) :
    commaSpaceSep (a :: b :: l) = a ++ ", ".data ++ commaSpaceSep (b :: l) := rfl

theorem niceStr_mem (s : Str) (h : niceStr s = true) :
    ∀ c ∈ s, niceChar c = true := by
  simpa [niceStr, List.all_eq_true] using h

/-- The lazy group over a serialized list body `"v1", "v2",` followed
by `]`: the match consumes everything up to the final comma, giving
exactly the comma-space-joined items. -/
theorem findGroup_items (xs : List PyVal) : ∀ (acc rest : Str), xs ≠ [] →
    (∀ v ∈ xs, ∃ s, v = PyVal.str s ∧ niceStr s = true) →
    findGroup acc ((dumpItems xs).drop 1 ++ ']' :: rest)
      = some (acc ++ commaSpaceSep (xs.map dumpValue), rest) := by
  induction xs with
  | nil => intro acc rest h _; exact absurd rfl h
  | cons v xs' ih =>
    intro acc rest _ hnice
    obtain ⟨s, hv, hs⟩ := hnice v (by simp)
    subst hv
    have hdi : ∀ (u : PyVal) (l : List PyVal),
        dumpItems (u :: l) = ' ' :: dumpValue u ++ ',' :: dumpItems l := by
      intro u l
      rw [dumpItems]
    have hds : dumpValue (PyVal.str s) = '"' :: s ++ ['"'] := by
      rw [dumpValue]
      exact dumpStr_nice s hs
    rw [hdi, hds]
    simp only [List.drop_succ_cons, List.drop_zero, List.cons_append,
      List.append_assoc, List.singleton_append, List.nil_append]
    rw [findGroup_cons, if_neg (by decide : ¬ ('"' = ']')),
      parseTail_scan_none s '"' _ (fun d hd => (niceChar_spec d (niceStr_mem s hs d hd)).2.1)
        (by decide) (by decide)]
    show findGroup (acc ++ ['"'])
        (s ++ '"' :: ',' :: (dumpItems xs' ++ ']' :: rest)) = _
    rw [findGroup_through s (acc ++ ['"']) _ hs]
    cases xs' with
    | nil =>
      have hpt : parseTail (',' :: (dumpItems [] ++ ']' :: rest)) = some rest := by
        show parseTail (',' :: ']' :: rest) = some rest
        exact parseTail_comma_bracket rest
      rw [hpt]
      simp [commaSpaceSep, hds]
    | cons m more =>
      obtain ⟨sm, hm, hsm⟩ := hnice m (by simp)
      subst hm
      have hdsm : dumpValue (PyVal.str sm) = '"' :: sm ++ ['"'] := by
        rw [dumpValue]
        exact dumpStr_nice sm hsm
      have htext : dumpItems (PyVal.str sm :: more) ++ ']' :: rest
          = ' ' :: '"' :: (sm ++ '"' :: ',' :: (dumpItems more ++ ']' :: rest)) := by
        rw [hdi, hdsm]
        simp [List.append_assoc]
      have hpt : parseTail (',' :: (dumpItems (PyVal.str sm :: more) ++ ']' :: rest))
          = Option.none := by
        rw [htext]
        exact parseTail_comma_space_quote _
      rw [hpt]
      rw [htext]
      rw [findGroup_cons, if_neg (by decide : ¬ (',' = ']'))]
      have hpt2 : parseTail (' ' :: '"' :: (sm ++ '"' :: ',' :: (dumpItems more ++ ']' :: rest)))
          = Option.none := by
        rw [parseTail_ws_cons _ _ (by decide)]
        exact parseTail_head_fail _ _ (by decide) (by decide)
      rw [hpt2]
      show findGroup (acc ++ ['"'] ++ s ++ ['"'] ++ [','])
          (' ' :: '"' :: (sm ++ '"' :: ',' :: (dumpItems more ++ ']' :: rest))) = _
      rw [findGroup_cons, if_neg (by decide : ¬ (' ' = ']'))]
      have hpt3 : parseTail ('"' :: (sm ++ '"' :: ',' :: (dumpItems more ++ ']' :: rest)))
          = Option.none :=
        parseTail_head_fail _ _ (by decide) (by decide)
      rw [hpt3]
      show findGroup (acc ++ ['"'] ++ s ++ ['"'] ++ [','] ++ [' '])
          ('"' :: (sm ++ '"' :: ',' :: (dumpItems more ++ ']' :: rest))) = _
      have hih := ih (acc ++ ['"'] ++ s ++ ['"'] ++ [','] ++ [' ']) rest
        (by simp) (fun w hw => hnice w (by simp [hw]))
      rw [hdi, hdsm] at hih
      simp only [List.drop_succ_cons, List.drop_zero, List.cons_append,
        List.append_assoc, List.singleton_append, List.nil_append] at hih ⊢
      rw [hih]
      have hmap : commaSpaceSep ((PyVal.str s :: PyVal.str sm :: more).map dumpValue)
          = dumpValue (PyVal.str s) ++ ", ".data ++
            commaSpaceSep ((PyVal.str sm :: more).map dumpValue) := by
        simp only [List.map_cons]
        exact commaSpaceSep_two _ _ _
      rw [hmap, hds]
      simp [List.append_assoc]

/-- A serialized list body `[ "v1", "v2",]` (after the opening
bracket) matches, with the comma-space-joined items as the group. -/
theorem matchBracket_items (xs : List PyVal) (rest : Str) (hne : xs ≠ [])
    (hnice : ∀ v ∈ xs, ∃ s, v = PyVal.str s ∧ niceStr s = true) :
    matchBracket (dumpItems xs ++ ']' :: rest)
      = some (commaSpaceSep (xs.map dumpValue), rest) := by
  cases xs with
  | nil => exact absurd rfl hne
  | cons v xs' =>
    obtain ⟨s, hv, hs⟩ := hnice v (by simp)
    subst hv
    have hdi : dumpItems (PyVal.str s :: xs')
        = ' ' :: dumpValue (PyVal.str s) ++ ',' :: dumpItems xs' := by
      rw [dumpItems]
    have hds : dumpValue (PyVal.str s) = '"' :: s ++ ['"'] := by
      rw [dumpValue]
      exact dumpStr_nice s hs
    unfold matchBracket
    rw [hdi, hds]
    have htw : ((' ' :: ('"' :: s ++ ['"']) ++ ',' :: dumpItems xs') ++ ']' :: rest).takeWhile
        isPySpace = [' '] := by
      simp only [List.cons_append, List.takeWhile_cons]
      rw [if_pos (by decide), if_neg (by decide)]
    rw [htw]
    show tryWs _ 1 = _
    unfold tryWs
    have hdrop : ((' ' :: ('"' :: s ++ ['"']) ++ ',' :: dumpItems xs') ++ ']' :: rest).drop
        (0 + 1) = (dumpItems (PyVal.str s :: xs')).drop 1 ++ ']' :: rest := by
      rw [hdi, hds]
      simp
    rw [hdrop, findGroup_items (PyVal.str s :: xs') [] rest (by simp) hnice]
    simp

/-- A `[section]` header never matches: there is no comma before the
closing bracket. -/
theorem matchBracket_header (name : Str) (rest : Str) (hne : name ≠ [])
    (hbare : ∀ c ∈ name, isBareKeyChar c = true) :
    matchBracket (name ++ ']' :: rest) = Option.none := by
  have hbare_nws : ∀ c, isBareKeyChar c = true → isPySpace c = false := by
    intro c h
    by_contra hws
    simp only [Bool.not_eq_false] at hws
    unfold isPySpace at hws
    simp only [decide_eq_true_eq] at hws
    rcases hws with h1 | h1 | h1 | h1 | h1 | h1 <;> subst h1 <;>
      exact absurd h (by decide)
  have hbare_spec : ∀ c, isBareKeyChar c = true →
      ¬ c = ']' ∧ ¬ c = ',' := by
    intro c h
    constructor <;> intro h1 <;> subst h1 <;> exact absurd h (by decide)
  have hfg : ∀ (acc : Str) (nm : Str), nm ≠ [] →
      (∀ c ∈ nm, isBareKeyChar c = true) →
      findGroup acc (nm ++ ']' :: rest) = Option.none := by
    intro acc nm
    induction nm generalizing acc with
    | nil => intro h _; exact absurd rfl h
    | cons c nm' ih =>
      intro _ hb
      rw [List.cons_append, findGroup_cons,
        if_neg (hbare_spec c (hb c (by simp))).1]
      cases nm' with
      | nil =>
        simp only [List.nil_append]
        have : parseTail (']' :: rest) = Option.none :=
          parseTail_head_fail _ _ (by decide) (by decide)
        rw [this]
        show findGroup (acc ++ [c]) (']' :: rest) = Option.none
        rw [findGroup_cons, if_pos rfl]
      | cons c2 nm'' =>
        have hpt : parseTail ((c2 :: nm'') ++ ']' :: rest) = Option.none := by
          rw [List.cons_append]
          exact parseTail_head_fail _ _
            (hbare_nws c2 (hb c2 (by simp)))
            (hbare_spec c2 (hb c2 (by simp))).2
        rw [hpt]
        show findGroup (acc ++ [c]) ((c2 :: nm'') ++ ']' :: rest) = Option.none
        exact ih (acc ++ [c]) (by simp) (fun d hd => hb d (by simp [hd]))
  unfold matchBracket
  cases name with
  | nil => exact absurd rfl hne
  | cons c nm' =>
    have htw : ((c :: nm') ++ ']' :: rest).takeWhile isPySpace = [] := by
      rw [List.cons_append, List.takeWhile_cons,
        if_neg (by simp [hbare_nws c (hbare c (by simp))])]
    rw [htw]
    show tryWs _ 0 = _
    unfold tryWs
    exact hfg [] (c :: nm') (by simp) hbare

theorem flatNice_list (xs : List PyVal) (h : flatNice (.list xs) = true) :
    xs ≠ [] ∧ ∀ v ∈ xs, ∃ s, v = PyVal.str s ∧ niceStr s = true := by
  unfold flatNice at h
  simp only [Bool.and_eq_true] at h
  obtain ⟨h1, h2⟩ := h
  constructor
  · intro hnil
    subst hnil
    simp at h1
  · intro v hv
    have hh := (List.all_eq_true.mp h2) v hv
    cases v with
    | str s => exact ⟨s, rfl, hh⟩
    | none => exact absurd hh (by simp)
    | int n => exact absurd hh (by simp)
    | bool b => exact absurd hh (by simp)
    | list l => exact absurd hh (by simp)
    | dict d => exact absurd hh (by simp)

theorem bareKey_not_bracket (c : Char) (h : isBareKeyChar c = true) :
    ¬ c = '[' := by
  intro h1
  subst h1
  exact absurd h (by decide)

theorem mem_append_not_bracket (xs ys : Str)
    (hx : ∀ c ∈ xs, ¬ c = '[') (hy : ∀ c ∈ ys, ¬ c = '[') :
    ∀ c ∈ xs ++ ys, ¬ c = '[' := by
  intro c hc
  rcases List.mem_append.mp hc with h | h
  · exact hx c h
  · exact hy c h

theorem niceKey_no_bracket (k : Str) (hk : niceKey k = true) :
    ∀ c ∈ k, ¬ c = '[' := by
  intro c hc
  unfold niceKey at hk
  rw [decide_eq_true_eq] at hk
  exact bareKey_not_bracket c (List.all_eq_true.mp hk.2 c hc)

theorem dumpStr_nice_no_bracket (s : Str) (hs : niceStr s = true) :
    ∀ c ∈ dumpValue (PyVal.str s), ¬ c = '[' := by
  have hds : dumpValue (PyVal.str s) = '"' :: s ++ ['"'] := by
    rw [dumpValue]
    exact dumpStr_nice s hs
  rw [hds]
  intro c hc
  rcases List.mem_cons.mp hc with hc | hc
  · subst hc; decide
  · rcases List.mem_append.mp hc with hc | hc
    · exact (niceChar_spec c (niceStr_mem s hs c hc)).2.2.1
    · simp only [List.mem_singleton] at hc
      subst hc; decide

theorem dumpBool_no_bracket (b : Bool) :
    ∀ c ∈ dumpValue (PyVal.bool b), ¬ c = '[' := by
  cases b
  · exact (by decide : ∀ c ∈ dumpValue (PyVal.bool false), ¬ c = '[')
  · exact (by decide : ∀ c ∈ dumpValue (PyVal.bool true), ¬ c = '[')

/-- Collapsing a serialized list: the pass rewrites `[ "v1", "v2",]`
to `["v1", "v2"]` and continues after it. -/
theorem pySub_dumpList (xs : List PyVal) (rest : Str)
    (hl : flatNice (.list xs) = true) :
    pySub (dumpValue (.list xs) ++ rest) = specValue (.list xs) ++ pySub rest := by
  obtain ⟨hne, hnice⟩ := flatNice_list xs hl
  have hdv : dumpValue (.list xs) = '[' :: dumpItems xs ++ [']'] := by
    rw [dumpValue]
  rw [hdv]
  have htext : ('[' :: dumpItems xs ++ [']']) ++ rest
      = '[' :: (dumpItems xs ++ ']' :: rest) := by simp
  rw [htext, pySub_bracket_some _ _ _ (matchBracket_items xs rest hne hnice)]
  rw [specValue]
  simp [List.append_assoc]

/-- One emitted `key = value` line passes through the normalization
pass with its list (if any) collapsed, and scanning resumes after
it. -/
theorem pySub_line (k : Str) (v : PyVal) (rest : Str)
    (hk : niceKey k = true) (hv : flatNice v = true) :
    pySub ((tomlKey k ++ " = ".data ++ dumpValue v ++ ['\n']) ++ rest)
      = specLine k v ++ pySub rest := by
  have hkk : tomlKey k = k := by
    unfold tomlKey
    exact if_pos (of_decide_eq_true hk)
  have hsplit : (tomlKey k ++ " = ".data ++ dumpValue v ++ ['\n']) ++ rest
      = (k ++ " = ".data) ++ (dumpValue v ++ ('\n' :: rest)) := by
    rw [hkk]
    simp [List.append_assoc]
  have hpre : ∀ c ∈ k ++ " = ".data, ¬ c = '[' :=
    mem_append_not_bracket _ _ (niceKey_no_bracket k hk)
      (by decide : ∀ c ∈ " = ".data, ¬ c = '[')
  rw [hsplit, pySub_copy _ _ hpre]
  have hline : specLine k v = (k ++ " = ".data) ++ (specValue v ++ ['\n']) := by
    unfold specLine
    simp [List.append_assoc]
  rw [hline]
  cases v with
  | str s =>
    have hs : niceStr s = true := by simpa [flatNice] using hv
    have hnb : ∀ c ∈ dumpValue (PyVal.str s) ++ ['\n'], ¬ c = '[' :=
      mem_append_not_bracket _ _ (dumpStr_nice_no_bracket s hs) (by decide)
    have hsplit2 : dumpValue (PyVal.str s) ++ ('\n' :: rest)
        = (dumpValue (PyVal.str s) ++ ['\n']) ++ rest := by
      simp
    rw [hsplit2, pySub_copy _ _ hnb]
    have hsv : specValue (PyVal.str s) = dumpValue (PyVal.str s) := by
      rw [specValue]
      intro xs h
      exact PyVal.noConfusion h
    rw [hsv]
    simp [List.append_assoc]
  | bool b =>
    have hnb : ∀ c ∈ dumpValue (PyVal.bool b) ++ ['\n'], ¬ c = '[' :=
      mem_append_not_bracket _ _ (dumpBool_no_bracket b) (by decide)
    have hsplit2 : dumpValue (PyVal.bool b) ++ ('\n' :: rest)
        = (dumpValue (PyVal.bool b) ++ ['\n']) ++ rest := by
      simp
    rw [hsplit2, pySub_copy _ _ hnb]
    have hsv : specValue (PyVal.bool b) = dumpValue (PyVal.bool b) := by
      rw [specValue]
      intro xs h
      exact PyVal.noConfusion h
    rw [hsv]
    simp [List.append_assoc]
  | list xs =>
    rw [pySub_dumpList xs ('\n' :: rest) hv,
      pySub_cons_copy '\n' rest (by decide)]
    simp [List.append_assoc]
  | none => exact absurd hv (by simp [flatNice])
  | int n => exact absurd hv (by simp [flatNice])
  | dict d => exact absurd hv (by simp [flatNice])

/-- A whole flat block of `key = value` lines. -/
theorem pySub_entries_block (l : List (Str × PyVal)) : ∀ (rest : Str),
    (∀ p ∈ l, niceKey p.1 = true ∧ flatNice p.2 = true) →
    pySub (entriesText l ++ rest) = specEntries l ++ pySub rest := by
  induction l with
  | nil => intro rest _; rfl
  | cons p l' ih =>
    intro rest hp
    obtain ⟨k, v⟩ := p
    obtain ⟨hk, hv⟩ := hp (k, v) (by simp)
    have he : entriesText ((k, v) :: l') ++ rest
        = (tomlKey k ++ " = ".data ++ dumpValue v ++ ['\n']) ++ (entriesText l' ++ rest) := by
      rw [entriesText]
      simp [List.append_assoc]
    rw [he, pySub_line k v _ hk hv, ih rest (fun q hq => hp q (by simp [hq]))]
    rw [specEntries]
    simp [List.append_assoc]

/-- A `[section]` header line passes through the normalization pass
unchanged. -/
theorem pySub_header (name rest : Str) (hne : name ≠ [])
    (hbare : ∀ c ∈ name, isBareKeyChar c = true) :
    pySub ('\n' :: '[' :: (name ++ ']' :: rest))
      = '\n' :: '[' :: (name ++ ']' :: pySub rest) := by
  rw [pySub_cons_copy '\n' _ (by decide),
    pySub_bracket_none _ (matchBracket_header name rest hne hbare),
    pySub_copy name (']' :: rest) (fun c hc => bareKey_not_bracket c (hbare c hc)),
    pySub_cons_copy ']' rest (by decide)]

/-- A serialized list of nice strings sits on a single line. -/
theorem dumpItems_no_newline (xs : List PyVal)
    (hnice : ∀ v ∈ xs, ∃ s, v = PyVal.str s ∧ niceStr s = true) :
    ∀ c ∈ dumpItems xs, ¬ c = '\n' := by
  induction xs with
  | nil => intro c hc; simp [dumpItems] at hc
  | cons v xs' ih =>
    obtain ⟨s, hv, hs⟩ := hnice v (by simp)
    subst hv
    have hdi : dumpItems (PyVal.str s :: xs')
        = ' ' :: dumpValue (PyVal.str s) ++ ',' :: dumpItems xs' := by
      rw [dumpItems]
    have hds : dumpValue (PyVal.str s) = '"' :: s ++ ['"'] := by
      rw [dumpValue]
      exact dumpStr_nice s hs
    rw [hdi, hds]
    intro c hc
    rcases List.mem_cons.mp hc with hc | hc
    · subst hc; decide
    · rcases List.mem_append.mp hc with hc | hc
      · rcases List.mem_cons.mp hc with hc | hc
        · subst hc; decide
        · rcases List.mem_append.mp hc with hc | hc
          · intro h
            subst h
            have := niceStr_mem s hs '\n' hc
            exact absurd this (by decide)
          · simp only [List.mem_singleton] at hc
            subst hc; decide
      · rcases List.mem_cons.mp hc with hc | hc
        · subst hc; decide
        · exact ih (fun w hw => hnice w (by simp [hw])) c hc

/-- **C3 (counterexample).** The claim says the textual pass collapses
exactly the list literals that serialize across multiple lines and
have exactly one element.  But the serializer writes every list on a
single line (`[ "a", "b",]`), and the pass also rewrites this
*two*-element single-line literal (stripping its padding and trailing
comma), so the pass touches literals that are neither multi-line nor
single-element. -/
theorem C3_single_element_counterexample :
    dumpValue (PyVal.list [PyVal.str "a".data, PyVal.str "b".data])
      = "[ \"a\", \"b\",]".data ∧
    (∀ c ∈ "[ \"a\", \"b\",]".data, ¬ c = '\n') ∧
    pySub "[ \"a\", \"b\",]".data = "[\"a\", \"b\"]".data ∧
    pySub "[ \"a\", \"b\",]".data ≠ "[ \"a\", \"b\",]".data := by
  refine ⟨rfl, by decide, rfl, by decide⟩

/-- **C3 (amended).** The serializer emits every list on a single
line, as `[ "v1", …, "vn",]`; the textual pass rewrites every such
literal — whatever its element count — to the single-line bracketed
form `["v1", …, "vn"]`; in particular a single-element tag list such
as `tags: [solo]` appears in the output metadata block on one line, as
`tags = ["solo"]`. -/
theorem C3_single_line_list_normalization (xs : List PyVal)
    (hl : flatNice (.list xs) = true) :
    (∀ c ∈ dumpValue (.list xs), ¬ c = '\n') ∧
    pySub (dumpValue (.list xs)) = specValue (.list xs) ∧
    (ZolaFront.mk (.str "post".data) Option.none .none .none []
        [("tags".data, .list [.str "solo".data])]).to_toml
      = "title = \"post\"\n\n[taxonomies]\ntags = [\"solo\"]\n".data := by
  obtain ⟨hne, hnice⟩ := flatNice_list xs hl
  refine ⟨?_, ?_, rfl⟩
  · have hdv : dumpValue (.list xs) = '[' :: dumpItems xs ++ [']'] := by
      rw [dumpValue]
    rw [hdv]
    intro c hc
    rcases List.mem_cons.mp hc with hc | hc
    · subst hc; decide
    · rcases List.mem_append.mp hc with hc | hc
      · exact dumpItems_no_newline xs hnice c hc
      · simp only [List.mem_singleton] at hc
        subst hc; decide
  · have h := pySub_dumpList xs [] hl
    have h0 : pySub ([] : Str) = [] := rfl
    rw [h0] at h
    simp only [List.append_nil] at h
    exact h

theorem takeWhile_len_le (p : Char → Bool) (l : Str) :
    (l.takeWhile p).length ≤ l.length := by
  induction l with
  | nil => simp
  | cons c l' ih =>
    rw [List.takeWhile_cons]
    by_cases hp : p c
    · rw [if_pos hp]
      simp only [List.length_cons]
      omega
    · rw [if_neg hp]
      simp only [List.length_nil, List.length_cons]
      omega

theorem mem_of_dropWhile (p : Char → Bool) (l : Str) (c : Char)
    (h : c ∈ l.dropWhile p) : c ∈ l := by
  induction l with
  | nil => simp [List.dropWhile] at h
  | cons d l' ih =>
    rw [List.dropWhile_cons] at h
    by_cases hp : p d
    · rw [if_pos hp] at h
      exact List.mem_cons_of_mem d (ih h)
    · rw [if_neg hp] at h
      exact h

theorem parseTail_none_no_rb (w : Str) (h : ']' ∉ w) :
    parseTail w = Option.none := by
  unfold parseTail
  cases h1 : w.dropWhile isPySpace with
  | nil => rfl
  | cons d w2 =>
    by_cases hd : d = ','
    · subst hd
      show (match w2.dropWhile isPySpace with
            | ']' :: r => some r
            | _ => Option.none) = Option.none
      cases h2 : w2.dropWhile isPySpace with
      | nil => rfl
      | cons e w3 =>
        by_cases he : e = ']'
        · exfalso
          apply h
          apply mem_of_dropWhile isPySpace w
          rw [h1]
          apply List.mem_cons_of_mem
          apply mem_of_dropWhile isPySpace w2
          rw [h2, he]
          exact List.mem_cons_self _ _
        · split
          · rename_i r heq
            injection heq with h3 _
            exact absurd h3 he
          · rfl
    · split
      · rename_i cs2 heq
        injection heq with h3 _
        exact absurd h3 hd
      · rfl

theorem findGroup_none_no_rb (z : Str) : ∀ (acc : Str), ']' ∉ z →
    findGroup acc z = Option.none := by
  induction z with
  | nil => intro acc _; rfl
  | cons c z' ih =>
    intro acc h
    have hc : ¬ c = ']' := fun hc => h (hc ▸ List.mem_cons_self _ _)
    have hz' : ']' ∉ z' := fun hz => h (List.mem_cons_of_mem c hz)
    rw [findGroup_cons, if_neg hc,
      parseTail_none_no_rb z' hz']
    exact ih (acc ++ [c]) hz'

theorem mem_of_drop (l : Str) (n : Nat) (c : Char) (h : c ∈ l.drop n) :
    c ∈ l := by
  induction l generalizing n with
  | nil => simp at h
  | cons d l' ih =>
    cases n with
    | zero => exact h
    | succ n' => exact List.mem_cons_of_mem d (ih n' h)

theorem tryWs_none_no_rb (z : Str) (h : ']' ∉ z) : ∀ (n : Nat),
    tryWs z n = Option.none := by
  intro n
  induction n with
  | zero => exact findGroup_none_no_rb z [] h
  | succ n' ih =>
    rw [tryWs]
    have hd : ']' ∉ z.drop (n' + 1) := fun hm => h (mem_of_drop z (n' + 1) ']' hm)
    rw [findGroup_none_no_rb _ [] hd]
    exact ih

theorem matchBracket_none_no_rb (z : Str) (h : ']' ∉ z) :
    matchBracket z = Option.none := by
  unfold matchBracket
  exact tryWs_none_no_rb z h _

theorem dropWhile_append_pos (p : Char → Bool) (xs ys : Str) (d : Char) (ds : Str)
    (h : xs.dropWhile p = d :: ds) :
    (xs ++ ys).dropWhile p = d :: (ds ++ ys) := by
  induction xs with
  | nil => simp [List.dropWhile] at h
  | cons c xs' ih =>
    rw [List.dropWhile_cons] at h
    rw [List.cons_append, List.dropWhile_cons]
    by_cases hp : p c
    · rw [if_pos hp] at h ⊢
      exact ih h
    · rw [if_neg hp] at h ⊢
      injection h with h1 h2
      subst h1
      rw [h2]

theorem dropWhile_append_nil (p : Char → Bool) (xs ys : Str)
    (h : xs.dropWhile p = []) :
    (xs ++ ys).dropWhile p = ys.dropWhile p := by
  induction xs with
  | nil => rfl
  | cons c xs' ih =>
    rw [List.dropWhile_cons] at h
    rw [List.cons_append, List.dropWhile_cons]
    by_cases hp : p c
    · rw [if_pos hp] at h ⊢
      exact ih h
    · rw [if_neg hp] at h
      exact absurd h (by simp)

theorem drop_append_le (xs ys : Str) : ∀ (n : Nat), n ≤ xs.length →
    (xs ++ ys).drop n = xs.drop n ++ ys := by
  induction xs with
  | nil =>
    intro n hn
    simp at hn
    subst hn
    rfl
  | cons c xs' ih =>
    intro n hn
    cases n with
    | zero => rfl
    | succ n' =>
      simp only [List.length_cons] at hn
      rw [List.cons_append]
      show (xs' ++ ys).drop n' = xs'.drop n' ++ ys
      exact ih n' (by omega)

theorem takeWhile_append_stop (p : Char → Bool) (xs ys : Str) (d : Char) (ds : Str)
    (h : xs.dropWhile p = d :: ds) :
    (xs ++ ys).takeWhile p = xs.takeWhile p := by
  induction xs with
  | nil => simp [List.dropWhile] at h
  | cons c xs' ih =>
    rw [List.dropWhile_cons] at h
    rw [List.cons_append, List.takeWhile_cons, List.takeWhile_cons]
    by_cases hp : p c
    · rw [if_pos hp] at h ⊢
      rw [if_pos hp, ih h]
    · rw [if_neg hp, if_neg hp]

theorem parseTail_append_nl (w : Str) :
    parseTail (w ++ ['\n']) = (parseTail w).map (fun r => r ++ ['\n']) := by
  unfold parseTail
  cases h1 : w.dropWhile isPySpace with
  | nil =>
    rw [dropWhile_append_nil isPySpace w ['\n'] h1]
    rfl
  | cons d w2 =>
    rw [dropWhile_append_pos isPySpace w ['\n'] d w2 h1]
    by_cases hd : d = ','
    · subst hd
      show (match (w2 ++ ['\n']).dropWhile isPySpace with
            | ']' :: r => some r
            | _ => Option.none)
          = (match w2.dropWhile isPySpace with
            | ']' :: r => some r
            | _ => Option.none).map (fun r => r ++ ['\n'])
      cases h2 : w2.dropWhile isPySpace with
      | nil =>
        rw [dropWhile_append_nil isPySpace w2 ['\n'] h2]
        rfl
      | cons e w3 =>
        rw [dropWhile_append_pos isPySpace w2 ['\n'] e w3 h2]
        by_cases he : e = ']'
        · subst he
          rfl
        · split
          · rename_i r heq
            injection heq with h3 _
            exact absurd h3 he
          · split
            · rename_i r heq
              injection heq with h3 _
              exact absurd h3 he
            · rfl
    · split
      · rename_i cs2 heq
        injection heq with h3 _
        exact absurd h3 hd
      · split
        · rename_i cs2 heq
          injection heq with h3 _
          exact absurd h3 hd
        · rfl

theorem findGroup_append_nl (z : Str) : ∀ (acc : Str),
    findGroup acc (z ++ ['\n'])
      = (findGroup acc z).map (fun p => (p.1, p.2 ++ ['\n'])) := by
  induction z with
  | nil =>
    intro acc
    show findGroup acc ['\n'] = Option.none
    rw [findGroup_cons, if_neg (by decide)]
    rfl
  | cons c z' ih =>
    intro acc
    rw [List.cons_append, findGroup_cons, findGroup_cons]
    by_cases hc : c = ']'
    · rw [if_pos hc, if_pos hc]
      rfl
    · rw [if_neg hc, if_neg hc, parseTail_append_nl z']
      cases hp : parseTail z' with
      | some r => rfl
      | none =>
        show findGroup (acc ++ [c]) (z' ++ ['\n'])
            = (findGroup (acc ++ [c]) z').map (fun p => (p.1, p.2 ++ ['\n']))
        exact ih (acc ++ [c])

theorem tryWs_append_nl (z : Str) : ∀ (n : Nat), n ≤ z.length →
    tryWs (z ++ ['\n']) n
      = (tryWs z n).map (fun p => (p.1, p.2 ++ ['\n'])) := by
  intro n
  induction n with
  | zero =>
    intro _
    show findGroup [] (z ++ ['\n']) = (findGroup [] z).map _
    exact findGroup_append_nl z []
  | succ n' ih =>
    intro hn
    rw [tryWs, tryWs, drop_append_le z ['\n'] (n' + 1) hn,
      findGroup_append_nl (z.drop (n' + 1)) []]
    cases hg : findGroup [] (z.drop (n' + 1)) with
    | some gr => rfl
    | none =>
      show tryWs (z ++ ['\n']) n' = (tryWs z n').map (fun p => (p.1, p.2 ++ ['\n']))
      exact ih (by omega)

theorem matchBracket_append_nl (z : Str) :
    matchBracket (z ++ ['\n'])
      = (matchBracket z).map (fun p => (p.1, p.2 ++ ['\n'])) := by
  cases h1 : z.dropWhile isPySpace with
  | nil =>
    have hz : ']' ∉ z := by
      intro hm
      have : (']' ∈ z.takeWhile isPySpace) ∨ (']' ∈ z.dropWhile isPySpace) := by
        rcases List.mem_append.mp (by rw [List.takeWhile_append_dropWhile]; exact hm :
          ']' ∈ z.takeWhile isPySpace ++ z.dropWhile isPySpace) with h | h
        · exact Or.inl h
        · exact Or.inr h
      rcases this with h | h
      · have := List.mem_takeWhile_imp h
        exact absurd this (by decide)
      · rw [h1] at h
        simp at h
    have hznl : ']' ∉ z ++ ['\n'] := by
      intro hm
      rcases List.mem_append.mp hm with h | h
      · exact hz h
      · simp at h
    rw [matchBracket_none_no_rb z hz, matchBracket_none_no_rb _ hznl]
    rfl
  | cons d w2 =>
    unfold matchBracket
    rw [takeWhile_append_stop isPySpace z ['\n'] d w2 h1]
    exact tryWs_append_nl z _ (takeWhile_len_le isPySpace z)

/-- Appending a final newline commutes with the normalization pass (a
newline is whitespace, but the tail of a match needs a comma and a
closing bracket after it, which a trailing newline cannot supply). -/
theorem pySub_append_nl (X : Str) : pySub (X ++ ['\n']) = pySub X ++ ['\n'] := by
  have H : ∀ (n : Nat) (Y : Str), Y.length ≤ n →
      pySub (Y ++ ['\n']) = pySub Y ++ ['\n'] := by
    intro n
    induction n using Nat.strong_induction_on with
    | _ n ih =>
      intro Y hY
      cases Y with
      | nil => rfl
      | cons c Y' =>
        simp only [List.length_cons] at hY
        rw [List.cons_append]
        by_cases hc : c = '['
        · subst hc
          cases hmb : matchBracket Y' with
          | some gr =>
            obtain ⟨g, r⟩ := gr
            have hlen := matchBracket_length Y' g r hmb
            have hmb2 : matchBracket (Y' ++ ['\n']) = some (g, r ++ ['\n']) := by
              rw [matchBracket_append_nl, hmb]
              rfl
            rw [pySub_bracket_some _ _ _ hmb2, pySub_bracket_some _ _ _ hmb,
              ih (n - 1) (by omega) r (by omega)]
            simp [List.append_assoc]
          | none =>
            have hmb2 : matchBracket (Y' ++ ['\n']) = Option.none := by
              rw [matchBracket_append_nl, hmb]
              rfl
            rw [pySub_bracket_none _ hmb2, pySub_bracket_none _ hmb,
              ih (n - 1) (by omega) Y' (by omega)]
            rfl
        · rw [pySub_cons_copy c _ hc, pySub_cons_copy c _ hc,
            ih (n - 1) (by omega) Y' (by omega)]
          rfl
  exact H X.length X (le_refl _)

/-- Every flat value's serialization ends in `"`, `]` or `e`. -/
theorem dumpValue_last (v : PyVal) (hv : flatNice v = true) :
    ∃ ys c, dumpValue v = ys ++ [c] ∧ (c = '"' ∨ c = ']' ∨ c = 'e') := by
  cases v with
  | str s =>
    refine ⟨'"' :: (s.map escChar).flatten, '"', ?_, Or.inl rfl⟩
    rw [dumpValue]
    rfl
  | bool b =>
    cases b with
    | true => exact ⟨"tru".data, 'e', rfl, Or.inr (Or.inr rfl)⟩
    | false => exact ⟨"fals".data, 'e', rfl, Or.inr (Or.inr rfl)⟩
  | list xs =>
    refine ⟨'[' :: dumpItems xs, ']', ?_, Or.inr (Or.inl rfl)⟩
    rw [dumpValue]
  | none => exact absurd hv (by simp [flatNice])
  | int n => exact absurd hv (by simp [flatNice])
  | dict d => exact absurd hv (by simp [flatNice])

theorem entriesText_append (a b : List (Str × PyVal)) :
    entriesText (a ++ b) = entriesText a ++ entriesText b := by
  induction a with
  | nil => rfl
  | cons p a' ih =>
    obtain ⟨k, v⟩ := p
    rw [List.cons_append, entriesText, entriesText, ih]
    simp [List.append_assoc]

/-- A non-empty flat block of emitted lines ends in a good character
followed by a single newline. -/
theorem entriesText_last (l : List (Str × PyVal)) (hl : l ≠ [])
    (hflat : ∀ p ∈ l, flatNice p.2 = true) :
    ∃ xs c, entriesText l = xs ++ [c, '\n'] ∧ (c = '"' ∨ c = ']' ∨ c = 'e') := by
  induction l with
  | nil => exact absurd rfl hl
  | cons p l' ih =>
    obtain ⟨k, v⟩ := p
    cases l' with
    | nil =>
      obtain ⟨ys, c, hdv, hc⟩ := dumpValue_last v (hflat (k, v) (by simp))
      refine ⟨tomlKey k ++ " = ".data ++ ys, c, ?_, hc⟩
      rw [entriesText, entriesText, hdv]
      simp [List.append_assoc]
    | cons q l'' =>
      obtain ⟨xs, c, hx, hc⟩ :=
        ih (by simp) (fun p hp => hflat p (by simp at hp ⊢; tauto))
      refine ⟨tomlKey k ++ " = ".data ++ dumpValue v ++ '\n' :: xs, c, ?_, hc⟩
      rw [entriesText, hx]
      simp [List.append_assoc]

theorem endsTwoNl_pair (xs : Str) (c : Char) (hc : ¬ c = '\n') :
    endsTwoNl (xs ++ [c, '\n']) = false := by
  unfold endsTwoNl
  have hrev : (xs ++ [c, '\n']).reverse = '\n' :: c :: xs.reverse := by
    simp
  rw [hrev]
  split
  · rename_i rest heq
    injection heq with _ h2
    injection h2 with h3 _
    exact absurd h3 hc
  · rfl

theorem headerPad_pair (xs : Str) (c : Char) (hc : ¬ c = '\n') :
    headerPad (xs ++ [c, '\n']) = (xs ++ [c, '\n']) ++ ['\n'] := by
  unfold headerPad
  rw [if_pos]
  constructor
  · simp
  · rw [endsTwoNl_pair xs c hc]
    simp

/-- `str.strip()` on text that starts with a non-space character and
ends `…c\n` with `c` non-space: only the final newline goes. -/
theorem pyStrip_chop (c0 : Char) (mid : Str) (c : Char)
    (h0 : isPySpace c0 = false) (hc : isPySpace c = false) :
    pyStrip (c0 :: (mid ++ [c, '\n'])) = c0 :: (mid ++ [c]) := by
  unfold pyStrip
  rw [List.dropWhile_cons, if_neg (by simp [h0])]
  have hrev : (c0 :: (mid ++ [c, '\n'])).reverse
      = '\n' :: c :: (mid.reverse ++ [c0]) := by
    simp
  rw [hrev, List.dropWhile_cons, if_pos (by decide), List.dropWhile_cons,
    if_neg (by simp [hc])]
  simp

theorem niceChar_digitChar10 (n : Nat) : niceChar (digitChar10 n) = true := by
  unfold digitChar10
  have h : n % 10 < 10 := Nat.mod_lt _ (by norm_num)
  set r := n % 10 with hr
  interval_cases r <;> decide

theorem niceStr_isoformat (d : PyDate) : niceStr (isoformat d) = true := by
  unfold isoformat niceStr
  simp only [List.all_cons, List.all_nil, niceChar_digitChar10, Bool.and_true,
    Bool.true_and]
  decide

theorem dumpSections_cons_flat (k : Str) (v : PyVal) (rest : List (Str × PyVal))
    (hv : flatNice v = true) :
    dumpSections ((k, v) :: rest)
      = (tomlKey k ++ " = ".data ++ dumpValue v ++ '\n' :: (dumpSections rest).1,
         (dumpSections rest).2) := by
  cases v with
  | str s => rfl
  | bool b => rfl
  | list xs => rfl
  | none => exact absurd hv (by simp [flatNice])
  | int n => exact absurd hv (by simp [flatNice])
  | dict d => exact absurd hv (by simp [flatNice])

theorem dumpSections_cons_none (k : Str) (rest : List (Str × PyVal)) :
    dumpSections ((k, PyVal.none) :: rest) = dumpSections rest := rfl

theorem dumpSections_cons_dict (k : Str) (d : List (Str × PyVal))
    (rest : List (Str × PyVal)) :
    dumpSections ((k, PyVal.dict d) :: rest)
      = ((dumpSections rest).1, (k, d) :: (dumpSections rest).2) := rfl

theorem dumpSections_flat (l : List (Str × PyVal))
    (h : ∀ p ∈ l, flatNice p.2 = true) :
    dumpSections l = (entriesText l, []) := by
  induction l with
  | nil => rfl
  | cons p l' ih =>
    obtain ⟨k, v⟩ := p
    have hv := h (k, v) (by simp)
    have ih' := ih (fun q hq => h q (by simp [hq]))
    rw [dumpSections_cons_flat k v l' hv, ih', entriesText]

/-- The three fixed top-level pairs of `to_toml` produce exactly the
lines of `topEntries` and no deferred sections (`None` values are
skipped by `dump_sections`). -/
theorem dumpSections_top (f : ZolaFront)
    (ht : flatNice f.title = true)
    (hd : f.description = PyVal.none ∨ flatNice f.description = true) :
    dumpSections
      [("title".data, f.title),
       ("date".data, match f.date with
          | some d => PyVal.str (isoformat d)
          | Option.none => PyVal.none),
       ("description".data, f.description)]
      = (entriesText (topEntries f), []) := by
  have hdesc : dumpSections [("description".data, f.description)]
      = (entriesText (match f.description with
          | PyVal.none => ([] : List (Str × PyVal))
          | v => [("description".data, v)]), []) := by
    rcases hd with hd | hd
    · rw [hd]
      rfl
    · cases hv : f.description with
      | str s => rfl
      | bool b => rfl
      | list xs => rfl
      | none => rw [hv] at hd; exact absurd hd (by simp [flatNice])
      | int n => rw [hv] at hd; exact absurd hd (by simp [flatNice])
      | dict d2 => rw [hv] at hd; exact absurd hd (by simp [flatNice])
  cases hdt : f.date with
  | some d =>
    have hds : flatNice (PyVal.str (isoformat d)) = true := by
      simp [flatNice, niceStr_isoformat]
    rw [show ("date".data, match some d with
          | some d => PyVal.str (isoformat d)
          | Option.none => PyVal.none)
        = ("date".data, PyVal.str (isoformat d)) from rfl]
    rw [dumpSections_cons_flat _ _ _ ht, dumpSections_cons_flat _ _ _ hds, hdesc]
    unfold topEntries
    rw [hdt]
    rw [show ([("title".data, f.title)] ++ [("date".data, PyVal.str (isoformat d))] ++
          match f.description with
          | PyVal.none => ([] : List (Str × PyVal))
          | v => [("description".data, v)])
        = ("title".data, f.title) :: ("date".data, PyVal.str (isoformat d)) ::
          (match f.description with
          | PyVal.none => ([] : List (Str × PyVal))
          | v => [("description".data, v)]) from by simp]
    rw [entriesText, entriesText]
  | none =>
    rw [show ("date".data, match (Option.none : Option PyDate) with
          | some d => PyVal.str (isoformat d)
          | Option.none => PyVal.none)
        = ("date".data, PyVal.none) from rfl]
    rw [dumpSections_cons_flat _ _ _ ht, dumpSections_cons_none, hdesc]
    unfold topEntries
    rw [hdt]
    rw [show ([("title".data, f.title)] ++ [] ++
          match f.description with
          | PyVal.none => ([] : List (Str × PyVal))
          | v => [("description".data, v)])
        = ("title".data, f.title) ::
          (match f.description with
          | PyVal.none => ([] : List (Str × PyVal))
          | v => [("description".data, v)]) from by simp]
    rw [entriesText]

/-- One pass of the `dumps` loop over flat sections: each section
contributes a blank line, its header and its lines; nothing is
deferred to a further pass. -/
theorem dumpsPass_flat (secs : List (Str × List (Str × PyVal))) :
    ∀ (xs : Str) (c : Char),
    (c = '"' ∨ c = ']' ∨ c = 'e') →
    (∀ s ∈ secs, s.2 ≠ [] ∧ ∀ p ∈ s.2, flatNice p.2 = true) →
    dumpsPass (xs ++ [c, '\n']) secs
      = ((xs ++ [c, '\n']) ++
          (secs.map (fun s =>
            '\n' :: '[' :: s.1 ++ ']' :: '\n' :: entriesText s.2)).flatten,
         []) := by
  induction secs with
  | nil =>
    intro xs c _ _
    simp [dumpsPass]
  | cons sec rest ih =>
    intro xs c hc hs
    obtain ⟨name, content⟩ := sec
    obtain ⟨hcne, hcflat⟩ := hs (name, content) (by simp)
    have hfs : dumpSections content = (entriesText content, []) :=
      dumpSections_flat content hcflat
    obtain ⟨ys, c2, hys, hc2⟩ := entriesText_last content hcne hcflat
    have hc2nl : ¬ c2 = '\n' := by
      rcases hc2 with h | h | h <;> (subst h; decide)
    have hcnl : ¬ c = '\n' := by
      rcases hc with h | h | h <;> (subst h; decide)
    simp only [dumpsPass]
    rw [hfs]
    rw [hys]
    rw [if_pos (Or.inl (by simp))]
    rw [headerPad_pair xs c hcnl]
    rw [show ((xs ++ [c, '\n']) ++ ['\n']) ++ '[' :: name ++ ']' :: '\n' :: (ys ++ [c2, '\n'])
        = (((xs ++ [c, '\n']) ++ ['\n']) ++ '[' :: name ++ ']' :: '\n' :: ys) ++ [c2, '\n']
      from by simp [List.append_assoc]]
    rw [ih _ c2 hc2 (fun s hs' => hs s (by simp [hs']))]
    simp only [List.map_cons, List.flatten_cons]
    rw [hys]
    simp [List.append_assoc]

theorem dumpsLoop_nil (fuel : Nat) (retval : Str) :
    dumpsLoop fuel retval [] = retval := by
  cases fuel <;> rfl

/-- The `dumps` loop on flat sections finishes in one pass. -/
theorem dumpsLoop_succ_flat (fuel : Nat) (xs : Str) (c : Char)
    (secs : List (Str × List (Str × PyVal)))
    (hc : c = '"' ∨ c = ']' ∨ c = 'e')
    (hs : ∀ s ∈ secs, s.2 ≠ [] ∧ ∀ p ∈ s.2, flatNice p.2 = true) :
    dumpsLoop (fuel + 1) (xs ++ [c, '\n']) secs
      = (xs ++ [c, '\n']) ++
          (secs.map (fun s =>
            '\n' :: '[' :: s.1 ++ ']' :: '\n' :: entriesText s.2)).flatten := by
  cases secs with
  | nil =>
    rw [dumpsLoop_nil]
    simp
  | cons s ss =>
    show dumpsLoop fuel (dumpsPass (xs ++ [c, '\n']) (s :: ss)).1
        (dumpsPass (xs ++ [c, '\n']) (s :: ss)).2 = _
    rw [dumpsPass_flat (s :: ss) xs c hc hs]
    exact dumpsLoop_nil fuel _

/-- One whole `[section]` block (header plus lines) through the
normalization pass. -/
theorem pySub_section_block (name : Str) (l : List (Str × PyVal)) (rest : Str)
    (hne : name ≠ []) (hbare : ∀ c ∈ name, isBareKeyChar c = true)
    (hl : ∀ p ∈ l, niceKey p.1 = true ∧ flatNice p.2 = true) :
    pySub (('\n' :: '[' :: name ++ ']' :: '\n' :: entriesText l) ++ rest)
      = ('\n' :: '[' :: name ++ ']' :: '\n' :: specEntries l) ++ pySub rest := by
  rw [show ('\n' :: '[' :: name ++ ']' :: '\n' :: entriesText l) ++ rest
      = '\n' :: '[' :: (name ++ ']' :: ('\n' :: (entriesText l ++ rest))) from by simp]
  rw [pySub_header name _ hne hbare, pySub_cons_copy '\n' _ (by decide),
    pySub_entries_block l rest hl]
  simp

/-- All emitted section blocks through the normalization pass. -/
theorem pySub_blocks (secs : List (Str × List (Str × PyVal)))
    (hsecs : ∀ s ∈ secs, s.1 ≠ [] ∧ (∀ c ∈ s.1, isBareKeyChar c = true) ∧
             ∀ p ∈ s.2, niceKey p.1 = true ∧ flatNice p.2 = true) :
    pySub (secs.map (fun s =>
        '\n' :: '[' :: s.1 ++ ']' :: '\n' :: entriesText s.2)).flatten
      = (secs.map (fun s =>
        '\n' :: '[' :: s.1 ++ ']' :: '\n' :: specEntries s.2)).flatten := by
  induction secs with
  | nil => rfl
  | cons s ss ih =>
    obtain ⟨name, l⟩ := s
    obtain ⟨hne, hbare, hl⟩ := hsecs (name, l) (by simp)
    simp only [List.map_cons, List.flatten_cons]
    rw [pySub_section_block name l _ hne hbare hl,
      ih (fun s hs' => hsecs s (by simp [hs']))]

/-- A non-empty run of flat section blocks ends in a good character
followed by a single newline. -/
theorem blocks_last (secs : List (Str × List (Str × PyVal)))
    (hne : secs ≠ [])
    (hs : ∀ s ∈ secs, s.2 ≠ [] ∧ ∀ p ∈ s.2, flatNice p.2 = true) :
    ∃ xs c, (secs.map (fun s =>
        '\n' :: '[' :: s.1 ++ ']' :: '\n' :: entriesText s.2)).flatten
      = xs ++ [c, '\n'] ∧ (c = '"' ∨ c = ']' ∨ c = 'e') := by
  induction secs with
  | nil => exact absurd rfl hne
  | cons s ss ih =>
    obtain ⟨name, l⟩ := s
    obtain ⟨hlne, hlflat⟩ := hs (name, l) (by simp)
    cases ss with
    | nil =>
      obtain ⟨ys, c, hy, hc⟩ := entriesText_last l hlne hlflat
      refine ⟨'\n' :: '[' :: name ++ ']' :: '\n' :: ys, c, ?_, hc⟩
      simp only [List.map_cons, List.map_nil, List.flatten_cons, List.flatten_nil]
      rw [hy]
      simp [List.append_assoc]
    | cons s2 ss2 =>
      obtain ⟨xs, c, hx, hc⟩ := ih (by simp) (fun q hq => hs q (by simp at hq ⊢; tauto))
      refine ⟨('\n' :: '[' :: name ++ ']' :: '\n' :: entriesText l) ++ xs, c, ?_, hc⟩
      simp only [List.map_cons, List.flatten_cons] at hx ⊢
      rw [hx]
      simp [List.append_assoc]

theorem cons_pair_reconcile (a : Char) (W W0 xs : Str) (c : Char)
    (hne : ¬ a = c) (h1 : W = a :: W0) (h2 : W = xs ++ [c, '\n']) :
    ∃ mid, W = a :: (mid ++ [c, '\n']) := by
  cases xs with
  | nil =>
    rw [h1] at h2
    injection h2 with h3 _
    exact absurd h3 hne
  | cons b xs' =>
    rw [h1, List.cons_append] at h2
    injection h2 with h3 h4
    exact ⟨xs', by rw [h1, h4]⟩

/-- The encoder tail after `dump_sections`: the one-pass loop,
`strip()`, the normalization pass and the final newline, on a flat
title-led top block followed by flat sections. -/
theorem encoder_core (fuel : Nat) (tv : PyVal) (ttail : List (Str × PyVal))
    (secs : List (Str × List (Str × PyVal)))
    (htv : flatNice tv = true)
    (httail : ∀ p ∈ ttail, niceKey p.1 = true ∧ flatNice p.2 = true)
    (hsecs : ∀ s ∈ secs, s.1 ≠ [] ∧ (∀ c ∈ s.1, isBareKeyChar c = true) ∧
             s.2 ≠ [] ∧ ∀ p ∈ s.2, niceKey p.1 = true ∧ flatNice p.2 = true) :
    pySub (pyStrip (dumpsLoop (fuel + 1)
        (entriesText (("title".data, tv) :: ttail)) secs)) ++ ['\n']
      = specEntries (("title".data, tv) :: ttail) ++
        (secs.map (fun s =>
          '\n' :: '[' :: s.1 ++ ']' :: '\n' :: specEntries s.2)).flatten := by
  have hflatTop : ∀ p ∈ (("title".data, tv) :: ttail), flatNice p.2 = true := by
    intro p hp
    rcases List.mem_cons.mp hp with hp | hp
    · rw [hp]
      exact htv
    · exact (httail p hp).2
  have hkeysTop : ∀ p ∈ (("title".data, tv) :: ttail),
      niceKey p.1 = true ∧ flatNice p.2 = true := by
    intro p hp
    rcases List.mem_cons.mp hp with hp | hp
    · rw [hp]
      refine ⟨?_, htv⟩
      show niceKey "title".data = true
      decide
    · exact httail p hp
  obtain ⟨xs0, c0, hT, hc0⟩ :=
    entriesText_last (("title".data, tv) :: ttail) (by simp) hflatTop
  have hsecs2 : ∀ s ∈ secs, s.2 ≠ [] ∧ ∀ p ∈ s.2, flatNice p.2 = true := by
    intro s hs
    obtain ⟨_, _, h1, h2⟩ := hsecs s hs
    exact ⟨h1, fun p hp => (h2 p hp).2⟩
  have hloop : dumpsLoop (fuel + 1)
      (entriesText (("title".data, tv) :: ttail)) secs
      = entriesText (("title".data, tv) :: ttail) ++
        (secs.map (fun s =>
          '\n' :: '[' :: s.1 ++ ']' :: '\n' :: entriesText s.2)).flatten := by
    rw [hT]
    exact dumpsLoop_succ_flat fuel xs0 c0 secs hc0 hsecs2
  rw [hloop]
  have hhead : entriesText (("title".data, tv) :: ttail) ++
      (secs.map (fun s =>
        '\n' :: '[' :: s.1 ++ ']' :: '\n' :: entriesText s.2)).flatten
      = 't' :: ("itle".data ++ (" = ".data ++ (dumpValue tv ++ ('\n' :: entriesText ttail ++
        (secs.map (fun s =>
          '\n' :: '[' :: s.1 ++ ']' :: '\n' :: entriesText s.2)).flatten)))) := by
    rw [entriesText, show tomlKey "title".data = "title".data from rfl,
      show ("title".data : Str) = 't' :: "itle".data from rfl]
    simp [List.append_assoc]
  have hpair : ∃ ys c, entriesText (("title".data, tv) :: ttail) ++
      (secs.map (fun s =>
        '\n' :: '[' :: s.1 ++ ']' :: '\n' :: entriesText s.2)).flatten
      = ys ++ [c, '\n'] ∧ (c = '"' ∨ c = ']' ∨ c = 'e') := by
    cases hse : secs with
    | nil =>
      refine ⟨xs0, c0, ?_, hc0⟩
      rw [hT]
      simp
    | cons s ss =>
      obtain ⟨ys, c, hy, hc⟩ := blocks_last (s :: ss) (by simp) (hse ▸ hsecs2)
      refine ⟨entriesText (("title".data, tv) :: ttail) ++ ys, c, ?_, hc⟩
      rw [hy]
      simp [List.append_assoc]
  obtain ⟨ys, c, hy, hc⟩ := hpair
  have hac : ¬ 't' = c := by
    rcases hc with h | h | h <;> (subst h; decide)
  obtain ⟨mid, hmid⟩ := cons_pair_reconcile 't' _ _ ys c hac hhead hy
  rw [hmid, pyStrip_chop 't' mid c (by decide)
    (by rcases hc with h | h | h <;> (subst h; decide)),
    ← pySub_append_nl ('t' :: (mid ++ [c])),
    show (('t' : Char) :: (mid ++ [c])) ++ ['\n'] = 't' :: (mid ++ [c, '\n']) from by simp,
    ← hmid,
    pySub_entries_block (("title".data, tv) :: ttail) _ hkeysTop,
    pySub_blocks secs (fun s hs => ⟨(hsecs s hs).1, (hsecs s hs).2.1, (hsecs s hs).2.2.2⟩)]

theorem dumpSections_cons_line (k : Str) (v : PyVal) (rest : List (Str × PyVal))
    (hv1 : ∀ d, v ≠ PyVal.dict d) (hv2 : v ≠ PyVal.none) :
    dumpSections ((k, v) :: rest)
      = (tomlKey k ++ " = ".data ++ dumpValue v ++ '\n' :: (dumpSections rest).1,
         (dumpSections rest).2) := by
  cases v with
  | str s => rfl
  | bool b => rfl
  | list xs => rfl
  | int n => rfl
  | none => exact absurd rfl hv2
  | dict d => exact absurd rfl (hv1 d)

theorem dumpSections_append (a b : List (Str × PyVal)) :
    dumpSections (a ++ b)
      = ((dumpSections a).1 ++ (dumpSections b).1,
         (dumpSections a).2 ++ (dumpSections b).2) := by
  induction a with
  | nil => simp [dumpSections]
  | cons p a' ih =>
    obtain ⟨k, v⟩ := p
    cases v with
    | dict d =>
      rw [List.cons_append, dumpSections_cons_dict, dumpSections_cons_dict, ih]
      rfl
    | none =>
      rw [List.cons_append, dumpSections_cons_none, dumpSections_cons_none, ih]
    | str s =>
      rw [List.cons_append,
        dumpSections_cons_line k _ _ (fun d h => PyVal.noConfusion h)
          (fun h => PyVal.noConfusion h),
        dumpSections_cons_line k _ _ (fun d h => PyVal.noConfusion h)
          (fun h => PyVal.noConfusion h), ih]
      simp [List.append_assoc]
    | bool v =>
      rw [List.cons_append,
        dumpSections_cons_line k _ _ (fun d h => PyVal.noConfusion h)
          (fun h => PyVal.noConfusion h),
        dumpSections_cons_line k _ _ (fun d h => PyVal.noConfusion h)
          (fun h => PyVal.noConfusion h), ih]
      simp [List.append_assoc]
    | int n =>
      rw [List.cons_append,
        dumpSections_cons_line k _ _ (fun d h => PyVal.noConfusion h)
          (fun h => PyVal.noConfusion h),
        dumpSections_cons_line k _ _ (fun d h => PyVal.noConfusion h)
          (fun h => PyVal.noConfusion h), ih]
      simp [List.append_assoc]
    | list xs =>
      rw [List.cons_append,
        dumpSections_cons_line k _ _ (fun d h => PyVal.noConfusion h)
          (fun h => PyVal.noConfusion h),
        dumpSections_cons_line k _ _ (fun d h => PyVal.noConfusion h)
          (fun h => PyVal.noConfusion h), ih]
      simp [List.append_assoc]

theorem encoder_core' (fuel : Nat) (hf : 0 < fuel) (tv : PyVal)
    (ttail : List (Str × PyVal)) (secs : List (Str × List (Str × PyVal)))
    (htv : flatNice tv = true)
    (httail : ∀ p ∈ ttail, niceKey p.1 = true ∧ flatNice p.2 = true)
    (hsecs : ∀ s ∈ secs, s.1 ≠ [] ∧ (∀ c ∈ s.1, isBareKeyChar c = true) ∧
             s.2 ≠ [] ∧ ∀ p ∈ s.2, niceKey p.1 = true ∧ flatNice p.2 = true) :
    pySub (pyStrip (dumpsLoop fuel
        (entriesText (("title".data, tv) :: ttail)) secs)) ++ ['\n']
      = specEntries (("title".data, tv) :: ttail) ++
        (secs.map (fun s =>
          '\n' :: '[' :: s.1 ++ ']' :: '\n' :: specEntries s.2)).flatten := by
  obtain ⟨k, rfl⟩ : ∃ k, fuel = k + 1 := ⟨fuel - 1, by omega⟩
  exact encoder_core k tv ttail secs htv httail hsecs

/-- `to_toml` through the whole encoder tail, given the outcome of
`dump_sections` on the assembled data. -/
theorem to_toml_core (f : ZolaFront) (secs : List (Str × List (Str × PyVal)))
    (ht : flatNice f.title = true)
    (hd : f.description = PyVal.none ∨ flatNice f.description = true)
    (hsecs : ∀ s ∈ secs, s.1 ≠ [] ∧ (∀ c ∈ s.1, isBareKeyChar c = true) ∧
             s.2 ≠ [] ∧ ∀ p ∈ s.2, niceKey p.1 = true ∧ flatNice p.2 = true)
    (hsec : dumpSections
        ([("title".data, f.title),
          ("date".data, match f.date with
            | some d => PyVal.str (isoformat d)
            | Option.none => PyVal.none),
          ("description".data, f.description)]
         ++ (if f.taxonomies.isEmpty then []
             else [("taxonomies".data, PyVal.dict f.taxonomies)])
         ++ (if f.extra.isEmpty then []
             else [("extra".data, PyVal.dict f.extra)]))
       = (entriesText (topEntries f), secs)) :
    f.to_toml = specEntries (topEntries f) ++
      (secs.map (fun s =>
        '\n' :: '[' :: s.1 ++ ']' :: '\n' :: specEntries s.2)).flatten := by
  have hdateflat : ∀ p ∈ (match f.date with
      | some d => [("date".data, PyVal.str (isoformat d))]
      | Option.none => ([] : List (Str × PyVal))),
      niceKey p.1 = true ∧ flatNice p.2 = true := by
    cases f.date with
    | some d =>
      intro p hp
      simp only [List.mem_singleton] at hp
      rw [hp]
      refine ⟨?_, ?_⟩
      · show niceKey "date".data = true
        decide
      · show flatNice (PyVal.str (isoformat d)) = true
        simp [flatNice, niceStr_isoformat]
    | none =>
      intro p hp
      simp at hp
  have hdescflat : ∀ p ∈ (match f.description with
      | PyVal.none => ([] : List (Str × PyVal))
      | v => [("description".data, v)]),
      niceKey p.1 = true ∧ flatNice p.2 = true := by
    cases hdv : f.description with
    | none =>
      intro p hp
      simp at hp
    | str s =>
      intro p hp
      simp only [List.mem_singleton] at hp
      rw [hp]
      refine ⟨?_, ?_⟩
      · show niceKey "description".data = true
        decide
      · show flatNice (PyVal.str s) = true
        rcases hd with hd | hd
        · rw [hdv] at hd
          exact PyVal.noConfusion hd
        · rw [hdv] at hd
          exact hd
    | bool b =>
      intro p hp
      simp only [List.mem_singleton] at hp
      rw [hp]
      refine ⟨?_, ?_⟩
      · show niceKey "description".data = true
        decide
      · show flatNice (PyVal.bool b) = true
        rfl
    | list xs =>
      intro p hp
      simp only [List.mem_singleton] at hp
      rw [hp]
      refine ⟨?_, ?_⟩
      · show niceKey "description".data = true
        decide
      · show flatNice (PyVal.list xs) = true
        rcases hd with hd | hd
        · rw [hdv] at hd
          exact PyVal.noConfusion hd
        · rw [hdv] at hd
          exact hd
    | int n =>
      exfalso
      rcases hd with hd | hd
      · rw [hdv] at hd
        exact PyVal.noConfusion hd
      · rw [hdv] at hd
        simp [flatNice] at hd
    | dict d2 =>
      exfalso
      rcases hd with hd | hd
      · rw [hdv] at hd
        exact PyVal.noConfusion hd
      · rw [hdv] at hd
        simp [flatNice] at hd
  have httail : ∀ p ∈ ((match f.date with
      | some d => [("date".data, PyVal.str (isoformat d))]
      | Option.none => ([] : List (Str × PyVal))) ++
      (match f.description with
      | PyVal.none => ([] : List (Str × PyVal))
      | v => [("description".data, v)])),
      niceKey p.1 = true ∧ flatNice p.2 = true := by
    intro p hp
    rcases List.mem_append.mp hp with hp | hp
    · exact hdateflat p hp
    · exact hdescflat p hp
  have htopc : topEntries f = ("title".data, f.title) ::
      ((match f.date with
      | some d => [("date".data, PyVal.str (isoformat d))]
      | Option.none => ([] : List (Str × PyVal))) ++
      (match f.description with
      | PyVal.none => ([] : List (Str × PyVal))
      | v => [("description".data, v)])) := by
    unfold topEntries
    simp
  simp only [ZolaFront.to_toml, tomlDumps]
  rw [hsec]
  dsimp only
  rw [htopc]
  rw [encoder_core' _ (Nat.lt_of_lt_of_le Nat.zero_lt_one (Nat.le_add_right 1 _))
    f.title _ secs ht httail hsecs]

/-- **C6.** The Metadata Encoder serializes the destination front
matter as `key = value` lines `title`, `date`, `description` in that
order — `date` as an ISO calendar date string when present and
omitted when absent, `description` omitted when absent — followed by
a `[taxonomies]` sub-table only if non-empty, followed by an
`[extra]` sub-table only if non-empty (`encoderSpec` is that layout,
stated from the spec's words, with every list on one line). -/
theorem C6_encoder_layout (f : ZolaFront)
    (ht : flatNice f.title = true)
    (hd : f.description = PyVal.none ∨ flatNice f.description = true)
    (htx : ∀ p ∈ f.taxonomies, niceKey p.1 = true ∧ flatNice p.2 = true)
    (hex : ∀ p ∈ f.extra, niceKey p.1 = true ∧ flatNice p.2 = true) :
    f.to_toml = encoderSpec f := by
  by_cases htax0 : f.taxonomies.isEmpty
  · by_cases hext0 : f.extra.isEmpty
    · rw [to_toml_core f [] ht hd (by intro s hs; simp at hs)
        (by rw [if_pos htax0, if_pos hext0, List.append_nil, List.append_nil]
            exact dumpSections_top f ht hd)]
      unfold encoderSpec
      rw [if_pos htax0, if_pos hext0]
      simp
    · have hexne : f.extra ≠ [] := by
        simpa [List.isEmpty_iff] using hext0
      rw [to_toml_core f [("extra".data, f.extra)] ht hd
        (by intro s hs
            simp only [List.mem_singleton] at hs
            subst hs
            refine ⟨?_, ?_, ?_, ?_⟩
            · show "extra".data ≠ []
              decide
            · show ∀ c ∈ "extra".data, isBareKeyChar c = true
              decide
            · show f.extra ≠ []
              exact hexne
            · show ∀ p ∈ f.extra, niceKey p.1 = true ∧ flatNice p.2 = true
              exact hex)
        (by rw [if_pos htax0, if_neg hext0, List.append_nil,
              dumpSections_append, dumpSections_top f ht hd,
              dumpSections_cons_dict]
            simp [dumpSections])]
      unfold encoderSpec
      rw [if_pos htax0, if_neg hext0]
      simp only [List.map_cons, List.map_nil, List.flatten_cons, List.flatten_nil,
        List.append_nil, List.nil_append, List.append_assoc]
      rfl
  · by_cases hext0 : f.extra.isEmpty
    · have htxne : f.taxonomies ≠ [] := by
        simpa [List.isEmpty_iff] using htax0
      rw [to_toml_core f [("taxonomies".data, f.taxonomies)] ht hd
        (by intro s hs
            simp only [List.mem_singleton] at hs
            subst hs
            refine ⟨?_, ?_, ?_, ?_⟩
            · show "taxonomies".data ≠ []
              decide
            · show ∀ c ∈ "taxonomies".data, isBareKeyChar c = true
              decide
            · show f.taxonomies ≠ []
              exact htxne
            · show ∀ p ∈ f.taxonomies, niceKey p.1 = true ∧ flatNice p.2 = true
              exact htx)
        (by rw [if_neg htax0, if_pos hext0, List.append_nil,
              dumpSections_append, dumpSections_top f ht hd,
              dumpSections_cons_dict]
            simp [dumpSections])]
      unfold encoderSpec
      rw [if_neg htax0, if_pos hext0]
      simp only [List.map_cons, List.map_nil, List.flatten_cons, List.flatten_nil,
        List.append_nil, List.nil_append, List.append_assoc]
      rfl
    · have htxne : f.taxonomies ≠ [] := by
        simpa [List.isEmpty_iff] using htax0
      have hexne : f.extra ≠ [] := by
        simpa [List.isEmpty_iff] using hext0
      rw [to_toml_core f
          [("taxonomies".data, f.taxonomies), ("extra".data, f.extra)] ht hd
        (by intro s hs
            simp only [List.mem_cons, List.mem_singleton, List.not_mem_nil,
              or_false] at hs
            rcases hs with hs | hs
            · subst hs
              refine ⟨?_, ?_, ?_, ?_⟩
              · show "taxonomies".data ≠ []
                decide
              · show ∀ c ∈ "taxonomies".data, isBareKeyChar c = true
                decide
              · show f.taxonomies ≠ []
                exact htxne
              · show ∀ p ∈ f.taxonomies, niceKey p.1 = true ∧ flatNice p.2 = true
                exact htx
            · subst hs
              refine ⟨?_, ?_, ?_, ?_⟩
              · show "extra".data ≠ []
                decide
              · show ∀ c ∈ "extra".data, isBareKeyChar c = true
                decide
              · show f.extra ≠ []
                exact hexne
              · show ∀ p ∈ f.extra, niceKey p.1 = true ∧ flatNice p.2 = true
                exact hex)
        (by rw [if_neg htax0, if_neg hext0,
              dumpSections_append, dumpSections_append, dumpSections_top f ht hd,
              dumpSections_cons_dict, dumpSections_cons_dict]
            simp [dumpSections])]
      unfold encoderSpec
      rw [if_neg htax0, if_neg hext0]
      simp only [List.map_cons, List.map_nil, List.flatten_cons, List.flatten_nil,
        List.append_nil, List.nil_append, List.append_assoc]
      rfl

theorem C3_single_line_list_normalization_witness :
    flatNice (PyVal.list [PyVal.str "x".data, PyVal.str "y".data]) = true ∧
    ((∀ c ∈ dumpValue (PyVal.list [PyVal.str "x".data, PyVal.str "y".data]),
        ¬ c = '\n') ∧
     pySub (dumpValue (PyVal.list [PyVal.str "x".data, PyVal.str "y".data]))
       = specValue (PyVal.list [PyVal.str "x".data, PyVal.str "y".data]) ∧
     (ZolaFront.mk (PyVal.str "post".data) Option.none PyVal.none PyVal.none []
        [("tags".data, PyVal.list [PyVal.str "solo".data])]).to_toml
       = "title = \"post\"\n\n[taxonomies]\ntags = [\"solo\"]\n".data) :=
  ⟨by decide, C3_single_line_list_normalization _ (by decide)⟩

theorem C6_encoder_layout_witness :
    (ZolaFront.mk (PyVal.str "post".data) (some ⟨2021, 2, 3⟩)
        (PyVal.str "sub".data) PyVal.none
        [("cover".data, PyVal.str "img".data)]
        [("tags".data, PyVal.list [PyVal.str "a".data, PyVal.str "b".data]),
         ("author".data, PyVal.list [PyVal.str "Alice".data])]).to_toml
      = encoderSpec
        (ZolaFront.mk (PyVal.str "post".data) (some ⟨2021, 2, 3⟩)
          (PyVal.str "sub".data) PyVal.none
          [("cover".data, PyVal.str "img".data)]
          [("tags".data, PyVal.list [PyVal.str "a".data, PyVal.str "b".data]),
           ("author".data, PyVal.list [PyVal.str "Alice".data])]) ∧
    encoderSpec
        (ZolaFront.mk (PyVal.str "post".data) (some ⟨2021, 2, 3⟩)
          (PyVal.str "sub".data) PyVal.none
          [("cover".data, PyVal.str "img".data)]
          [("tags".data, PyVal.list [PyVal.str "a".data, PyVal.str "b".data]),
           ("author".data, PyVal.list [PyVal.str "Alice".data])])
      = "title = \"post\"\ndate = \"2021-02-03\"\ndescription = \"sub\"\n\n[taxonomies]\ntags = [\"a\", \"b\"]\nauthor = [\"Alice\"]\n\n[extra]\ncover = \"img\"\n".data :=
  ⟨C6_encoder_layout _ (by decide) (Or.inr (by decide)) (by decide) (by decide),
   by decide⟩
